import Mathlib

/-!
# Shared-memory task / job-step pools of slurmd (`src/slurmd/shmem_struct.c`)

A shallow embedding of the slot pools kept in the slurmd shared memory segment.

* The two arrays `tasks[MAX_TASKS]` and `job_steps[MAX_JOB_STEPS]` are total maps
  from `Fin MAX_TASKS` / `Fin MAX_JOB_STEPS` to records.  The header that fixes
  `MAX_TASKS` and `MAX_JOB_STEPS` is not part of the sources, so both capacities are
  parameters (`MT`, `MJ`) of every definition.
* A pointer into one of the arrays is the index of the slot it points to, `NULL` is
  `none`.
* A C procedure that mutates the segment becomes a function returning the segment
  after the call together with the returned value.
* `fatal (...)` is a log call; the statement after it (`return SLURM_ERROR`) is what
  the embedding returns, with the segment as it is at that point.
-/

namespace Slurmd

/-- Return code `SLURM_SUCCESS` of the slurm protocol headers. -/
def SLURM_SUCCESS : Int := 0

/-- Return code `SLURM_ERROR` of the slurm protocol headers. -/
def SLURM_ERROR : Int := -1

/-- The record `task_t`: five value fields, the occupancy flag, the back pointer to the
owning job step and the forward pointer to the next task of the same job step. -/
structure task_t (MT MJ : Nat) where
  threadid : Nat
  pid : Nat
  task_id : Nat
  uid : Nat
  gid : Nat
  used : Bool
  job_step : Option (Fin MJ)
  next : Option (Fin MT)
deriving DecidableEq

/-- The record `job_step_t`: two value fields, the occupancy flag and the pointer to the
head of the task list. -/
structure job_step_t (MT : Nat) where
  job_id : Nat
  job_step_id : Nat
  used : Bool
  head_task : Option (Fin MT)
deriving DecidableEq

/-- The segment `slurmd_shmem_t`: the task array and the job-step array. -/
structure slurmd_shmem_t (MT MJ : Nat) where
  tasks : Fin MT → task_t MT MJ
  job_steps : Fin MJ → job_step_t MT

variable {MT MJ : Nat}

/-- Body of `clear_task`: `used = false`, `job_step = NULL`, `next = NULL`. -/
def clear_task (task : task_t MT MJ) : task_t MT MJ :=
  { task with used := false, job_step := none, next := none }

/-- Body of `clear_job_step`: `used = false`, `head_task = NULL`. -/
def clear_job_step (job_step : job_step_t MT) : job_step_t MT :=
  { job_step with used := false, head_task := none }

/-- Body of `copy_task`: the five value fields of `src` are assigned to `dest`. -/
def copy_task (dest src : task_t MT MJ) : task_t MT MJ :=
  { dest with
    threadid := src.threadid
    pid := src.pid
    task_id := src.task_id
    uid := src.uid
    gid := src.gid }

/-- Body of `copy_job_step`: the two value fields of `src` are assigned to `dest`. -/
def copy_job_step (dest src : job_step_t MT) : job_step_t MT :=
  { dest with
    job_id := src.job_id
    job_step_id := src.job_step_id }

/-- Assignment to the task slot `i` of the segment. -/
def set_task (shmem : slurmd_shmem_t MT MJ) (i : Fin MT) (v : task_t MT MJ) :
    slurmd_shmem_t MT MJ :=
  { shmem with tasks := Function.update shmem.tasks i v }

/-- Assignment to the job-step slot `i` of the segment. -/
def set_job_step (shmem : slurmd_shmem_t MT MJ) (i : Fin MJ) (v : job_step_t MT) :
    slurmd_shmem_t MT MJ :=
  { shmem with job_steps := Function.update shmem.job_steps i v }

/-- The `clear_task (& shmem->tasks[i])` call on a slot of the segment. -/
def clear_task_at (shmem : slurmd_shmem_t MT MJ) (i : Fin MT) : slurmd_shmem_t MT MJ :=
  set_task shmem i (clear_task (shmem.tasks i))

/-- The `clear_job_step (& shmem->job_steps[i])` call on a slot of the segment. -/
def clear_job_step_at (shmem : slurmd_shmem_t MT MJ) (i : Fin MJ) : slurmd_shmem_t MT MJ :=
  set_job_step shmem i (clear_job_step (shmem.job_steps i))

/-- The all-zero task record left by `memset (shmem, 0, ...)`. -/
def zero_task : task_t MT MJ :=
  { threadid := 0, pid := 0, task_id := 0, uid := 0, gid := 0,
    used := false, job_step := none, next := none }

/-- The all-zero job-step record left by `memset (shmem, 0, ...)`. -/
def zero_job_step : job_step_t MT :=
  { job_id := 0, job_step_id := 0, used := false, head_task := none }

/-- The segment after `memset (shmem, 0, sizeof (slurmd_shmem_t))`. -/
def memset_zero (_shmem : slurmd_shmem_t MT MJ) : slurmd_shmem_t MT MJ :=
  { tasks := fun _ => zero_task, job_steps := fun _ => zero_job_step }

/-- First loop of `init_shmem`, `for (i = 0; i < n; i++) clear_task (& shmem->tasks[i])`,
run for the indices below `n`. -/
def init_tasks_loop (shmem : slurmd_shmem_t MT MJ) : Nat → slurmd_shmem_t MT MJ
  | 0 => shmem
  | n + 1 =>
    let s := init_tasks_loop shmem n
    if h : n < MT then clear_task_at s ⟨n, h⟩ else s

/-- Second loop of `init_shmem`,
`for (i = 0; i < n; i++) clear_job_step (& shmem->job_steps[i])`. -/
def init_job_steps_loop (shmem : slurmd_shmem_t MT MJ) : Nat → slurmd_shmem_t MT MJ
  | 0 => shmem
  | n + 1 =>
    let s := init_job_steps_loop shmem n
    if h : n < MJ then clear_job_step_at s ⟨n, h⟩ else s

/-- The procedure `init_shmem`: zero fill, then clear every task slot, then clear every
job-step slot. -/
def init_shmem (shmem : slurmd_shmem_t MT MJ) : slurmd_shmem_t MT MJ :=
  init_job_steps_loop (init_tasks_loop (memset_zero shmem) MT) MJ

/-- Loop of `add_job_step` from index `i` on, with `fuel` iterations left: the first slot
with `used == false` is marked used, receives the value fields of `new_job_step` and is
returned; when the loop runs out the result is the `SLURM_ERROR` sentinel (`none`). -/
def add_job_step_loop (shmem : slurmd_shmem_t MT MJ) (new_job_step : job_step_t MT) :
    Nat → Nat → Option (Fin MJ) × slurmd_shmem_t MT MJ
  | 0, _ => (none, shmem)
  | fuel + 1, i =>
    if h : i < MJ then
      if (shmem.job_steps ⟨i, h⟩).used = false then
        let s1 := set_job_step shmem ⟨i, h⟩ { shmem.job_steps ⟨i, h⟩ with used := true }
        let s2 := set_job_step s1 ⟨i, h⟩ (copy_job_step (s1.job_steps ⟨i, h⟩) new_job_step)
        (some ⟨i, h⟩, s2)
      else add_job_step_loop shmem new_job_step fuel (i + 1)
    else (none, shmem)

/-- The function `add_job_step`: returned slot (or `none` for the `SLURM_ERROR` sentinel)
and the segment after the call. -/
def add_job_step (shmem : slurmd_shmem_t MT MJ) (new_job_step : job_step_t MT) :
    Option (Fin MJ) × slurmd_shmem_t MT MJ :=
  add_job_step_loop shmem new_job_step MJ 0

/-- Loop of `add_task` from index `i` on, with `fuel` iterations left. -/
def add_task_loop (shmem : slurmd_shmem_t MT MJ) (new_task : task_t MT MJ) :
    Nat → Nat → Option (Fin MT) × slurmd_shmem_t MT MJ
  | 0, _ => (none, shmem)
  | fuel + 1, i =>
    if h : i < MT then
      if (shmem.tasks ⟨i, h⟩).used = false then
        let s1 := set_task shmem ⟨i, h⟩ { shmem.tasks ⟨i, h⟩ with used := true }
        let s2 := set_task s1 ⟨i, h⟩ (copy_task (s1.tasks ⟨i, h⟩) new_task)
        (some ⟨i, h⟩, s2)
      else add_task_loop shmem new_task fuel (i + 1)
    else (none, shmem)

/-- The function `add_task`: returned slot (or `none` for the `SLURM_ERROR` sentinel) and
the segment after the call. -/
def add_task (shmem : slurmd_shmem_t MT MJ) (new_task : task_t MT MJ) :
    Option (Fin MT) × slurmd_shmem_t MT MJ :=
  add_task_loop shmem new_task MT 0

/-- The function `prepend_task`: return code and the segment after the call. -/
def prepend_task (shmem : slurmd_shmem_t MT MJ) (job_step : Fin MJ) (task : task_t MT MJ) :
    Int × slurmd_shmem_t MT MJ :=
  match add_task shmem task with
  | (none, s) => (SLURM_ERROR, s)
  | (some new_task, s) =>
    let s1 := set_task s new_task { s.tasks new_task with next := (s.job_steps job_step).head_task }
    let s2 := set_job_step s1 job_step { s1.job_steps job_step with head_task := some new_task }
    let s3 := set_task s2 new_task { s2.tasks new_task with job_step := some job_step }
    (SLURM_SUCCESS, s3)

/-- The `while (task_ptr != NULL)` loop of `deallocate_job_step`: the next pointer is read,
the slot is cleared, the walk goes on from the pointer read.  `none` when `fuel`
iterations did not reach `NULL`. -/
def deallocate_loop (shmem : slurmd_shmem_t MT MJ) :
    Nat → Option (Fin MT) → Option (slurmd_shmem_t MT MJ)
  | _, none => some shmem
  | 0, some _ => none
  | fuel + 1, some task_ptr =>
    let task_temp_ptr := (shmem.tasks task_ptr).next
    deallocate_loop (clear_task_at shmem task_ptr) fuel task_temp_ptr

/-- The function `deallocate_job_step`: return code and the segment after the call.  Every
iteration of the walk clears the forward link of the slot it visits, so no walk takes
more than `MAX_TASKS + 1` iterations (`deallocate_job_step_total`); that is the fuel, and
`none` is never returned. -/
def deallocate_job_step (shmem : slurmd_shmem_t MT MJ) (jobstep : Fin MJ) :
    Option (Int × slurmd_shmem_t MT MJ) :=
  match deallocate_loop shmem (MT + 1) (shmem.job_steps jobstep).head_task with
  | none => none
  | some s => some (SLURM_SUCCESS, clear_job_step_at s jobstep)

/-- The chain that starts at pointer `p` and follows `next` visits exactly the slots of
`L`, in that order, and then reaches `NULL`. -/
def is_chain (tasks : Fin MT → task_t MT MJ) : Option (Fin MT) → List (Fin MT) → Prop
  | p, [] => p = none
  | p, i :: L => p = some i ∧ is_chain tasks (tasks i).next L

/-- The task list of job step `j`, read head to tail, is `L`. -/
def task_list (shmem : slurmd_shmem_t MT MJ) (j : Fin MJ) (L : List (Fin MT)) : Prop :=
  is_chain shmem.tasks (shmem.job_steps j).head_task L

/-- The five value fields of a slot equal those of a source record. -/
def same_values (a b : task_t MT MJ) : Prop :=
  a.threadid = b.threadid ∧ a.pid = b.pid ∧ a.task_id = b.task_id ∧ a.uid = b.uid ∧
    a.gid = b.gid

/-- The segment states reached from an initialised segment by the consumer operations
`add_job_step`, `prepend_task` and `deallocate_job_step`, the latter two applied to
job-step slots that are occupied at the time of the call. -/
inductive Reachable : slurmd_shmem_t MT MJ → Prop
  | init (s0 : slurmd_shmem_t MT MJ) : Reachable (init_shmem s0)
  | after_add_job_step (s : slurmd_shmem_t MT MJ) (src : job_step_t MT) :
      Reachable s → Reachable (add_job_step s src).2
  | after_prepend_task (s : slurmd_shmem_t MT MJ) (j : Fin MJ) (t : task_t MT MJ) :
      Reachable s → (s.job_steps j).used = true → Reachable (prepend_task s j t).2
  | after_deallocate_job_step (s s' : slurmd_shmem_t MT MJ) (j : Fin MJ) (r : Int) :
      Reachable s → (s.job_steps j).used = true →
      deallocate_job_step s j = some (r, s') → Reachable s'

/-- Successive `add_task` calls, one per source record: the returned slots in call order
and the segment after the last call. -/
def add_tasks (shmem : slurmd_shmem_t MT MJ) :
    List (task_t MT MJ) → List (Option (Fin MT)) × slurmd_shmem_t MT MJ
  | [] => ([], shmem)
  | t :: ts =>
    let r := add_task shmem t
    let rs := add_tasks r.2 ts
    (r.1 :: rs.1, rs.2)

/-- Number of task slots whose forward link is set; every iteration of the walk of
`deallocate_job_step` that reads a set link lowers it. -/
def linked_count (shmem : slurmd_shmem_t MT MJ) : Nat :=
  (Finset.univ.filter (fun k => ((shmem.tasks k).next).isSome = true)).card

/-- Slots whose `used` flag the scan of `add_task` reads, in the order it reads them,
from index `i` on with `fuel` iterations left. -/
def add_task_inspected (shmem : slurmd_shmem_t MT MJ) : Nat → Nat → List (Fin MT)
  | 0, _ => []
  | fuel + 1, i =>
    if h : i < MT then
      if (shmem.tasks ⟨i, h⟩).used = false then [⟨i, h⟩]
      else ⟨i, h⟩ :: add_task_inspected shmem fuel (i + 1)
    else []

/-- Slots whose `used` flag the scan of `add_job_step` reads, in the order it reads
them. -/
def add_job_step_inspected (shmem : slurmd_shmem_t MT MJ) : Nat → Nat → List (Fin MJ)
  | 0, _ => []
  | fuel + 1, i =>
    if h : i < MJ then
      if (shmem.job_steps ⟨i, h⟩).used = false then [⟨i, h⟩]
      else ⟨i, h⟩ :: add_job_step_inspected shmem fuel (i + 1)
    else []

/-- Slots the `while` loop of `deallocate_job_step` visits (clears), in order, one per
iteration. -/
def deallocate_visited (shmem : slurmd_shmem_t MT MJ) :
    Nat → Option (Fin MT) → List (Fin MT)
  | _, none => []
  | 0, some _ => []
  | fuel + 1, some task_ptr =>
    let task_temp_ptr := (shmem.tasks task_ptr).next
    task_ptr :: deallocate_visited (clear_task_at shmem task_ptr) fuel task_temp_ptr

/-- The data-model invariant of a segment: a free task slot has both links cleared;
every job step has a finite task list made of occupied slots whose back pointer is that
job step; every occupied task slot points back to an occupied job step and is in the
task list of that job step. -/
structure seg_inv (s : slurmd_shmem_t MT MJ) : Prop where
  free_task : ∀ i, (s.tasks i).used = false →
    (s.tasks i).next = none ∧ (s.tasks i).job_step = none
  chains : ∀ j, ∃ L, task_list s j L ∧
    ∀ i ∈ L, (s.tasks i).used = true ∧ (s.tasks i).job_step = some j
  owned : ∀ i, (s.tasks i).used = true →
    ∃ j L, (s.tasks i).job_step = some j ∧ (s.job_steps j).used = true ∧
      task_list s j L ∧ i ∈ L

/-! ## Concrete segments (three or four task slots, two job-step slots) -/

/-- A source task record with recognisable value fields. -/
def ex_src (n : Nat) : task_t 3 2 :=
  { threadid := n, pid := n + 10, task_id := n + 20, uid := n + 30, gid := n + 40,
    used := false, job_step := none, next := none }

/-- A source job-step record. -/
def ex_job_src : job_step_t 3 :=
  { job_id := 5, job_step_id := 6, used := false, head_task := none }

/-- An occupied task slot of job step `j` with forward link `nx`. -/
def ex_used_task (n : Nat) (j : Fin 2) (nx : Option (Fin 3)) : task_t 3 2 :=
  { ex_src n with used := true, job_step := some j, next := nx }

/-- Segment with task slot 0 occupied (the only task of job step 0), task slots 1 and 2
free, job-step slot 1 free. -/
def ex_half : slurmd_shmem_t 3 2 :=
  { tasks := fun i => if i = 0 then ex_used_task 1 0 none else zero_task
    job_steps := fun j =>
      if j = 0 then { job_id := 1, job_step_id := 0, used := true, head_task := some 0 }
      else zero_job_step }

/-- Segment with every task slot occupied: job step 0 owns the chain 2, 0 and job step 1
owns task 1. -/
def ex_full : slurmd_shmem_t 3 2 :=
  { tasks := fun i =>
      if i = 0 then ex_used_task 1 0 none
      else if i = 1 then ex_used_task 2 1 none
      else ex_used_task 3 0 (some 0)
    job_steps := fun j =>
      if j = 0 then { job_id := 1, job_step_id := 0, used := true, head_task := some 2 }
      else { job_id := 1, job_step_id := 1, used := true, head_task := some 1 } }

/-- Segment with every task slot free and an occupied job step 0 without tasks. -/
def ex_empty : slurmd_shmem_t 3 2 :=
  { tasks := fun _ => zero_task
    job_steps := fun j =>
      if j = 0 then { job_id := 1, job_step_id := 0, used := true, head_task := none }
      else zero_job_step }

/-- Segment in which the task list of job step 0 is the single slot 0 and that slot is
free, with both of its links cleared. -/
def ex_stale : slurmd_shmem_t 3 2 :=
  { tasks := fun _ => zero_task
    job_steps := fun j =>
      if j = 0 then { job_id := 1, job_step_id := 0, used := true, head_task := some 0 }
      else zero_job_step }

/-- A free task slot whose forward link is still set. -/
def ex_dangling : task_t 3 2 :=
  { (zero_task : task_t 3 2) with next := some 0 }

/-- Segment in which two job steps share task slots: the task list of job step 0 is
1, 0 and the task list of job step 1 is 2, 1, 0. -/
def ex_shared : slurmd_shmem_t 3 2 :=
  { tasks := fun i =>
      if i = 0 then ex_used_task 1 0 none
      else if i = 1 then ex_used_task 2 0 (some 0)
      else ex_used_task 3 1 (some 1)
    job_steps := fun j =>
      if j = 0 then { job_id := 1, job_step_id := 0, used := true, head_task := some 1 }
      else { job_id := 1, job_step_id := 1, used := true, head_task := some 2 } }

/-- Segment reached from `init_shmem` by `add_job_step` and three `prepend_task` calls on
the job step added: the task pool is full and job step 0 owns the chain 2, 1, 0. -/
def ex_reached : slurmd_shmem_t 3 2 :=
  (prepend_task (prepend_task (prepend_task (add_job_step (init_shmem ex_full)
    ex_job_src).2 0 (ex_src 1)).2 0 (ex_src 2)).2 0 (ex_src 3)).2

/-- A source task record for a segment with four task slots. -/
def ex4_src (n : Nat) : task_t 4 2 :=
  { threadid := n, pid := n + 10, task_id := n + 20, uid := n + 30, gid := n + 40,
    used := false, job_step := none, next := none }

/-- A source job-step record for a segment with four task slots. -/
def ex4_job_src : job_step_t 4 :=
  { job_id := 5, job_step_id := 6, used := false, head_task := none }

/-- Some prior content of a segment with four task slots and two job-step slots. -/
def ex4_seg : slurmd_shmem_t 4 2 :=
  { tasks := fun _ => { ex4_src 9 with used := true, next := some 3 }
    job_steps := fun _ => { ex4_job_src with used := true, head_task := some 1 } }

/-- The segment `ex4_seg` after `init_shmem` and four `add_task` calls. -/
def ex4_full : slurmd_shmem_t 4 2 :=
  (add_tasks (init_shmem ex4_seg) [ex4_src 1, ex4_src 2, ex4_src 3, ex4_src 4]).2

/-- The segment `ex4_full` after `add_job_step` and `prepend_task` of two tasks on job
step 0. -/
def ex4_final : slurmd_shmem_t 4 2 :=
  (prepend_task (prepend_task (add_job_step ex4_full ex4_job_src).2 0 (ex4_src 6)).2 0
    (ex4_src 7)).2

/-- Segment reached from `init_shmem` by two `add_job_step` calls and one `prepend_task`
on each job step: job step 0 owns slot 0, job step 1 owns slot 1, slot 2 is free. -/
def ex_two : slurmd_shmem_t 3 2 :=
  (prepend_task (prepend_task (add_job_step (add_job_step (init_shmem ex_full)
    ex_job_src).2 ex_job_src).2 0 (ex_src 1)).2 1 (ex_src 2)).2

/-! ## Slot assignment -/

/-- Reading back the task slot just assigned. -/
@[simp]
theorem set_task_tasks_same (s : slurmd_shmem_t MT MJ) (i : Fin MT) (v : task_t MT MJ) :
    (set_task s i v).tasks i = v := by
  simp [set_task]

/-- Assigning a task slot leaves the other task slots alone. -/
theorem set_task_tasks_ne (s : slurmd_shmem_t MT MJ) (i k : Fin MT) (v : task_t MT MJ)
    (h : k ≠ i) : (set_task s i v).tasks k = s.tasks k := by
  simp [set_task, Function.update_noteq h]

/-- Assigning a task slot leaves the job-step array alone. -/
@[simp]
theorem set_task_job_steps (s : slurmd_shmem_t MT MJ) (i : Fin MT) (v : task_t MT MJ) :
    (set_task s i v).job_steps = s.job_steps := rfl

/-- Reading back the job-step slot just assigned. -/
@[simp]
theorem set_job_step_same (s : slurmd_shmem_t MT MJ) (i : Fin MJ) (v : job_step_t MT) :
    (set_job_step s i v).job_steps i = v := by
  simp [set_job_step]

/-- Assigning a job-step slot leaves the other job-step slots alone. -/
theorem set_job_step_ne (s : slurmd_shmem_t MT MJ) (i k : Fin MJ) (v : job_step_t MT)
    (h : k ≠ i) : (set_job_step s i v).job_steps k = s.job_steps k := by
  simp [set_job_step, Function.update_noteq h]

/-- Assigning a job-step slot leaves the task array alone. -/
@[simp]
theorem set_job_step_tasks (s : slurmd_shmem_t MT MJ) (i : Fin MJ) (v : job_step_t MT) :
    (set_job_step s i v).tasks = s.tasks := rfl

/-! ## The allocation scans -/

/-- A scan over occupied slots only ends in the error sentinel, the segment untouched. -/
theorem add_task_loop_none (s : slurmd_shmem_t MT MJ) (t : task_t MT MJ) :
    ∀ (fuel i : Nat), (∀ k : Fin MT, i ≤ k.val → (s.tasks k).used = true) →
      add_task_loop s t fuel i = (none, s) := by
  intro fuel
  induction fuel with
  | zero => intro i _; rfl
  | succ f ih =>
    intro i hall
    unfold add_task_loop
    by_cases h : i < MT
    · have hu : (s.tasks ⟨i, h⟩).used = true := hall ⟨i, h⟩ (Nat.le_refl i)
      simp only [h, dite_true, hu, Bool.true_eq_false, if_false]
      exact ih (i + 1) (fun k hk => hall k (by omega))
    · simp only [h, dite_false]

/-- A scan that starts at or below the lowest free slot `n` returns `n`, marked used and
holding the value fields of the source. -/
theorem add_task_loop_some (s : slurmd_shmem_t MT MJ) (t : task_t MT MJ) (n : Fin MT)
    (hfree : (s.tasks n).used = false) :
    ∀ (fuel i : Nat), i ≤ n.val → n.val < i + fuel →
      (∀ k : Fin MT, i ≤ k.val → k.val < n.val → (s.tasks k).used = true) →
      add_task_loop s t fuel i =
        (some n, set_task s n (copy_task { s.tasks n with used := true } t)) := by
  intro fuel
  induction fuel with
  | zero => intro i h1 h2; omega
  | succ f ih =>
    intro i h1 h2 hall
    unfold add_task_loop
    have hi : i < MT := lt_of_le_of_lt h1 n.isLt
    by_cases hin : i = n.val
    · have e : (⟨i, hi⟩ : Fin MT) = n := Fin.ext hin
      simp only [hi, dite_true, e, hfree, if_true]
      simp [set_task]
    · have hu : (s.tasks ⟨i, hi⟩).used = true :=
        hall ⟨i, hi⟩ (Nat.le_refl i) (by simp; omega)
      simp only [hi, dite_true, hu, Bool.true_eq_false, if_false]
      exact ih (i + 1) (by omega) (by omega) (fun k hk hk2 => hall k (by omega) hk2)

/-- Among the slots of a pool with a free slot there is a free slot of lowest index. -/
theorem exists_lowest_free {N : Nat} (used : Fin N → Bool) (h : ∃ i, used i = false) :
    ∃ n : Fin N, used n = false ∧ ∀ k : Fin N, k.val < n.val → used k = true := by
  classical
  let P : Nat → Prop := fun m => ∃ hm : m < N, used ⟨m, hm⟩ = false
  have hP : ∃ m, P m := by
    obtain ⟨i, hi⟩ := h
    exact ⟨i.val, i.isLt, hi⟩
  obtain ⟨hm, hfree⟩ := Nat.find_spec hP
  refine ⟨⟨Nat.find hP, hm⟩, hfree, ?_⟩
  intro k hk
  have hnot : ¬ P k.val := Nat.find_min hP hk
  by_contra hc
  exact hnot ⟨k.isLt, by simpa using hc⟩

/-- With every task slot occupied `add_task` returns the sentinel and changes nothing. -/
theorem add_task_full (s : slurmd_shmem_t MT MJ) (t : task_t MT MJ)
    (h : ∀ k, (s.tasks k).used = true) : add_task s t = (none, s) :=
  add_task_loop_none s t MT 0 (fun k _ => h k)

/-- With `n` the lowest free task slot, `add_task` returns `n`. -/
theorem add_task_lowest (s : slurmd_shmem_t MT MJ) (t : task_t MT MJ) (n : Fin MT)
    (hfree : (s.tasks n).used = false)
    (hlow : ∀ k : Fin MT, k.val < n.val → (s.tasks k).used = true) :
    add_task s t = (some n, set_task s n (copy_task { s.tasks n with used := true } t)) :=
  add_task_loop_some s t n hfree MT 0 (Nat.zero_le _) (by have := n.isLt; omega)
    (fun k _ hk => hlow k hk)

/-- Either every task slot is occupied and `add_task` fails without a change, or it
returns the lowest free slot. -/
theorem add_task_cases (s : slurmd_shmem_t MT MJ) (t : task_t MT MJ) :
    ((∀ k, (s.tasks k).used = true) ∧ add_task s t = (none, s)) ∨
    (∃ n : Fin MT, (s.tasks n).used = false ∧
      (∀ k : Fin MT, k.val < n.val → (s.tasks k).used = true) ∧
      add_task s t = (some n, set_task s n (copy_task { s.tasks n with used := true } t))) := by
  by_cases h : ∃ i, (s.tasks i).used = false
  · obtain ⟨n, hn, hlow⟩ := exists_lowest_free (fun i => (s.tasks i).used) h
    exact Or.inr ⟨n, hn, hlow, add_task_lowest s t n hn hlow⟩
  · have hall : ∀ k, (s.tasks k).used = true := by
      intro k
      by_contra hc
      exact h ⟨k, by simpa using hc⟩
    exact Or.inl ⟨hall, add_task_full s t hall⟩

/-- A scan over occupied job-step slots only ends in the error sentinel. -/
theorem add_job_step_loop_none (s : slurmd_shmem_t MT MJ) (t : job_step_t MT) :
    ∀ (fuel i : Nat), (∀ k : Fin MJ, i ≤ k.val → (s.job_steps k).used = true) →
      add_job_step_loop s t fuel i = (none, s) := by
  intro fuel
  induction fuel with
  | zero => intro i _; rfl
  | succ f ih =>
    intro i hall
    unfold add_job_step_loop
    by_cases h : i < MJ
    · have hu : (s.job_steps ⟨i, h⟩).used = true := hall ⟨i, h⟩ (Nat.le_refl i)
      simp only [h, dite_true, hu, Bool.true_eq_false, if_false]
      exact ih (i + 1) (fun k hk => hall k (by omega))
    · simp only [h, dite_false]

/-- A job-step scan that starts at or below the lowest free slot `n` returns `n`. -/
theorem add_job_step_loop_some (s : slurmd_shmem_t MT MJ) (t : job_step_t MT) (n : Fin MJ)
    (hfree : (s.job_steps n).used = false) :
    ∀ (fuel i : Nat), i ≤ n.val → n.val < i + fuel →
      (∀ k : Fin MJ, i ≤ k.val → k.val < n.val → (s.job_steps k).used = true) →
      add_job_step_loop s t fuel i =
        (some n, set_job_step s n (copy_job_step { s.job_steps n with used := true } t)) := by
  intro fuel
  induction fuel with
  | zero => intro i h1 h2; omega
  | succ f ih =>
    intro i h1 h2 hall
    unfold add_job_step_loop
    have hi : i < MJ := lt_of_le_of_lt h1 n.isLt
    by_cases hin : i = n.val
    · have e : (⟨i, hi⟩ : Fin MJ) = n := Fin.ext hin
      simp only [hi, dite_true, e, hfree, if_true]
      simp [set_job_step]
    · have hu : (s.job_steps ⟨i, hi⟩).used = true :=
        hall ⟨i, hi⟩ (Nat.le_refl i) (by simp; omega)
      simp only [hi, dite_true, hu, Bool.true_eq_false, if_false]
      exact ih (i + 1) (by omega) (by omega) (fun k hk hk2 => hall k (by omega) hk2)

/-- Either every job-step slot is occupied and `add_job_step` fails without a change, or
it returns the lowest free slot. -/
theorem add_job_step_cases (s : slurmd_shmem_t MT MJ) (t : job_step_t MT) :
    ((∀ k, (s.job_steps k).used = true) ∧ add_job_step s t = (none, s)) ∨
    (∃ n : Fin MJ, (s.job_steps n).used = false ∧
      (∀ k : Fin MJ, k.val < n.val → (s.job_steps k).used = true) ∧
      add_job_step s t =
        (some n, set_job_step s n (copy_job_step { s.job_steps n with used := true } t))) := by
  by_cases h : ∃ i, (s.job_steps i).used = false
  · obtain ⟨n, hn, hlow⟩ := exists_lowest_free (fun i => (s.job_steps i).used) h
    refine Or.inr ⟨n, hn, hlow, ?_⟩
    exact add_job_step_loop_some s t n hn MJ 0 (Nat.zero_le _) (by have := n.isLt; omega)
      (fun k _ hk => hlow k hk)
  · have hall : ∀ k, (s.job_steps k).used = true := by
      intro k
      by_contra hc
      exact h ⟨k, by simpa using hc⟩
    exact Or.inl ⟨hall, add_job_step_loop_none s t MJ 0 (fun k _ => hall k)⟩

/-! ## Segment initialisation -/

/-- Clearing loop over the task slots: slots below `n` are cleared, the others and the
job-step array are as before. -/
theorem init_tasks_loop_spec (s : slurmd_shmem_t MT MJ) (n : Nat) :
    (init_tasks_loop s n).job_steps = s.job_steps ∧
    ∀ k : Fin MT, (init_tasks_loop s n).tasks k =
      if k.val < n then clear_task (s.tasks k) else s.tasks k := by
  induction n with
  | zero => exact ⟨rfl, fun k => by simp [init_tasks_loop]⟩
  | succ m ih =>
    obtain ⟨ihj, iht⟩ := ih
    unfold init_tasks_loop
    by_cases h : m < MT
    · simp only [h, dite_true, clear_task_at, set_task_job_steps]
      refine ⟨ihj, fun k => ?_⟩
      by_cases hk : k = ⟨m, h⟩
      · subst hk
        simp [iht]
      · have hv : k.val ≠ m := fun e => hk (Fin.ext e)
        rw [set_task_tasks_ne _ _ _ _ hk, iht k]
        by_cases hlt : k.val < m
        · simp [hlt, Nat.lt_succ_of_lt hlt]
        · have : ¬ k.val < m + 1 := by omega
          simp [hlt, this]
    · simp only [h, dite_false]
      refine ⟨ihj, fun k => ?_⟩
      rw [iht k]
      have h1 : k.val < m := by have := k.isLt; omega
      have h2 : k.val < m + 1 := by omega
      simp [h1, h2]

/-- Clearing loop over the job-step slots. -/
theorem init_job_steps_loop_spec (s : slurmd_shmem_t MT MJ) (n : Nat) :
    (init_job_steps_loop s n).tasks = s.tasks ∧
    ∀ k : Fin MJ, (init_job_steps_loop s n).job_steps k =
      if k.val < n then clear_job_step (s.job_steps k) else s.job_steps k := by
  induction n with
  | zero => exact ⟨rfl, fun k => by simp [init_job_steps_loop]⟩
  | succ m ih =>
    obtain ⟨ihj, iht⟩ := ih
    unfold init_job_steps_loop
    by_cases h : m < MJ
    · simp only [h, dite_true, clear_job_step_at, set_job_step_tasks]
      refine ⟨ihj, fun k => ?_⟩
      by_cases hk : k = ⟨m, h⟩
      · subst hk
        simp [iht]
      · have hv : k.val ≠ m := fun e => hk (Fin.ext e)
        rw [set_job_step_ne _ _ _ _ hk, iht k]
        by_cases hlt : k.val < m
        · simp [hlt, Nat.lt_succ_of_lt hlt]
        · have : ¬ k.val < m + 1 := by omega
          simp [hlt, this]
    · simp only [h, dite_false]
      refine ⟨ihj, fun k => ?_⟩
      rw [iht k]
      have h1 : k.val < m := by have := k.isLt; omega
      have h2 : k.val < m + 1 := by omega
      simp [h1, h2]

/-- Every task slot of an initialised segment is the all-zero record. -/
theorem init_shmem_tasks (s0 : slurmd_shmem_t MT MJ) (k : Fin MT) :
    (init_shmem s0).tasks k = zero_task := by
  unfold init_shmem
  rw [(init_job_steps_loop_spec _ MJ).1, (init_tasks_loop_spec _ MT).2 k]
  simp [memset_zero, clear_task, zero_task]

/-- Every job-step slot of an initialised segment is the all-zero record. -/
theorem init_shmem_job_steps (s0 : slurmd_shmem_t MT MJ) (k : Fin MJ) :
    (init_shmem s0).job_steps k = zero_job_step := by
  unfold init_shmem
  rw [(init_job_steps_loop_spec _ MJ).2 k, (init_tasks_loop_spec _ MT).1]
  simp [memset_zero, clear_job_step, zero_job_step]

/-! ## Task chains -/

/-- A chain is read off the `next` fields of its own slots only. -/
theorem is_chain_congr (tasks tasks' : Fin MT → task_t MT MJ) :
    ∀ (L : List (Fin MT)) (p : Option (Fin MT)),
      (∀ i ∈ L, (tasks' i).next = (tasks i).next) →
      is_chain tasks p L → is_chain tasks' p L := by
  intro L
  induction L with
  | nil => intro p _ h; exact h
  | cons i L ih =>
    intro p hagree h
    obtain ⟨hp, hrest⟩ := h
    refine ⟨hp, ?_⟩
    rw [hagree i (List.mem_cons_self i L)]
    exact ih _ (fun k hk => hagree k (List.mem_cons_of_mem i hk)) hrest

/-- A pointer starts at most one chain. -/
theorem is_chain_unique (tasks : Fin MT → task_t MT MJ) :
    ∀ (L L' : List (Fin MT)) (p : Option (Fin MT)),
      is_chain tasks p L → is_chain tasks p L' → L = L' := by
  intro L
  induction L with
  | nil =>
    intro L' p h h'
    cases L' with
    | nil => rfl
    | cons i L' =>
      have h0 : p = none := h
      have h1 : p = some i := h'.1
      rw [h0] at h1
      cases h1
  | cons i L ih =>
    intro L' p h h'
    cases L' with
    | nil =>
      have h0 : p = none := h'
      have h1 : p = some i := h.1
      rw [h0] at h1
      cases h1
    | cons k L' =>
      have e : some i = some k := h.1.symm.trans h'.1
      have eik : i = k := Option.some.inj e
      subst eik
      rw [ih L' _ h.2 h'.2]

/-- The part of a chain behind one of its slots is the chain of that slot's `next`. -/
theorem is_chain_tail_of_mem (tasks : Fin MT → task_t MT MJ) :
    ∀ (L : List (Fin MT)) (p : Option (Fin MT)) (i : Fin MT),
      is_chain tasks p L → i ∈ L →
      ∃ suf : List (Fin MT), suf.length < L.length ∧ is_chain tasks (tasks i).next suf := by
  intro L
  induction L with
  | nil => intro p i _ hi; cases hi
  | cons k L ih =>
    intro p i h hi
    rcases List.mem_cons.mp hi with e | hmem
    · subst e
      exact ⟨L, by simp, h.2⟩
    · obtain ⟨suf, hlen, hs⟩ := ih _ i h.2 hmem
      exact ⟨suf, by simp; omega, hs⟩

/-- A chain visits no slot twice. -/
theorem is_chain_nodup (tasks : Fin MT → task_t MT MJ) :
    ∀ (L : List (Fin MT)) (p : Option (Fin MT)), is_chain tasks p L → L.Nodup := by
  intro L
  induction L with
  | nil => intro p _; exact List.nodup_nil
  | cons i L ih =>
    intro p h
    refine List.nodup_cons.mpr ⟨?_, ih _ h.2⟩
    intro hmem
    obtain ⟨suf, hlen, hs⟩ := is_chain_tail_of_mem tasks L _ i h.2 hmem
    have e : suf = L := is_chain_unique tasks suf L _ hs h.2
    rw [e] at hlen
    exact Nat.lt_irrefl _ hlen

/-- A chain has at most `MAX_TASKS` slots. -/
theorem is_chain_length_le (tasks : Fin MT → task_t MT MJ) (L : List (Fin MT))
    (p : Option (Fin MT)) (h : is_chain tasks p L) : L.length ≤ MT := by
  have := (is_chain_nodup tasks L p h).length_le_card
  simpa using this

/-- Started on a chain `L` with at least `L.length` fuel, the walk ends with exactly the
slots of `L` cleared and everything else as before. -/
theorem deallocate_loop_spec :
    ∀ (L : List (Fin MT)) (s : slurmd_shmem_t MT MJ) (p : Option (Fin MT)) (fuel : Nat),
      is_chain s.tasks p L → L.length ≤ fuel →
      deallocate_loop s fuel p = some
        { tasks := fun k => if k ∈ L then clear_task (s.tasks k) else s.tasks k
          job_steps := s.job_steps } := by
  intro L
  induction L with
  | nil =>
    intro s p fuel h _
    have hp : p = none := h
    subst hp
    cases fuel <;> simp [deallocate_loop]
  | cons i L ih =>
    intro s p fuel h hfuel
    have hp : p = some i := h.1
    subst hp
    have hnd := is_chain_nodup s.tasks (i :: L) _ h
    have hi : i ∉ L := (List.nodup_cons.mp hnd).1
    cases fuel with
    | zero => simp at hfuel
    | succ f =>
      have hc : is_chain (clear_task_at s i).tasks (s.tasks i).next L := by
        refine is_chain_congr s.tasks _ L _ ?_ h.2
        intro k hk
        have hne : k ≠ i := fun e => hi (e ▸ hk)
        simp [clear_task_at, set_task_tasks_ne _ _ _ _ hne]
      have hlen : L.length ≤ f := by simpa using hfuel
      simp only [deallocate_loop]
      rw [ih (clear_task_at s i) _ f hc hlen]
      congr 2
      funext k
      by_cases hk : k = i
      · subst hk
        simp [hi, clear_task_at]
      · simp [hk, clear_task_at, set_task_tasks_ne _ _ _ _ hk]

/-- On a job step with task list `L`, `deallocate_job_step` returns success with the slots
of `L` and the job-step slot cleared and nothing else changed. -/
theorem deallocate_job_step_spec (s : slurmd_shmem_t MT MJ) (j : Fin MJ) (L : List (Fin MT))
    (h : task_list s j L) :
    deallocate_job_step s j = some (SLURM_SUCCESS,
      { tasks := fun k => if k ∈ L then clear_task (s.tasks k) else s.tasks k
        job_steps := Function.update s.job_steps j (clear_job_step (s.job_steps j)) }) := by
  have hlen : L.length ≤ MT + 1 :=
    Nat.le_succ_of_le (is_chain_length_le s.tasks L _ h)
  unfold deallocate_job_step
  rw [deallocate_loop_spec L s _ (MT + 1) h hlen]
  rfl

/-! ## Prepending and reachable states -/

/-- With every task slot occupied `prepend_task` reports the error and changes nothing. -/
theorem prepend_task_full (s : slurmd_shmem_t MT MJ) (j : Fin MJ) (t : task_t MT MJ)
    (h : ∀ k, (s.tasks k).used = true) : prepend_task s j t = (SLURM_ERROR, s) := by
  unfold prepend_task
  rw [add_task_full s t h]

/-- With `n` the lowest free task slot, `prepend_task` fills `n`, links it in front of the
task list of `j` and returns success. -/
theorem prepend_task_lowest (s : slurmd_shmem_t MT MJ) (j : Fin MJ) (t : task_t MT MJ)
    (n : Fin MT) (hfree : (s.tasks n).used = false)
    (hlow : ∀ k : Fin MT, k.val < n.val → (s.tasks k).used = true) :
    prepend_task s j t = (SLURM_SUCCESS,
      { tasks := Function.update s.tasks n
          { copy_task { s.tasks n with used := true } t with
            next := (s.job_steps j).head_task
            job_step := some j }
        job_steps := Function.update s.job_steps j
          { s.job_steps j with head_task := some n } }) := by
  unfold prepend_task
  rw [add_task_lowest s t n hfree hlow]
  simp [set_task, set_job_step]

/-- A successful `prepend_task` on a job step whose task list `L` holds occupied slots
only: the lowest free slot `n` is put in front of `L`. -/
theorem prepend_task_step (s : slurmd_shmem_t MT MJ) (j : Fin MJ) (t : task_t MT MJ)
    (L : List (Fin MT)) (hL : task_list s j L)
    (hocc : ∀ i ∈ L, (s.tasks i).used = true)
    (hs : (prepend_task s j t).1 = SLURM_SUCCESS) :
    ∃ n : Fin MT, (s.tasks n).used = false ∧
      task_list (prepend_task s j t).2 j (n :: L) ∧
      same_values ((prepend_task s j t).2.tasks n) t ∧
      ((prepend_task s j t).2.tasks n).used = true ∧
      ((prepend_task s j t).2.tasks n).next = (s.job_steps j).head_task ∧
      ((prepend_task s j t).2.job_steps j).head_task = some n ∧
      ((prepend_task s j t).2.tasks n).job_step = some j ∧
      (∀ k, k ≠ n → (prepend_task s j t).2.tasks k = s.tasks k) := by
  rcases add_task_cases s t with ⟨hall, _⟩ | ⟨n, hfree, hlow, _⟩
  · rw [prepend_task_full s j t hall] at hs
    have hne : SLURM_ERROR ≠ SLURM_SUCCESS := by decide
    exact absurd hs hne
  · have hn : n ∉ L := by
      intro hmem
      have := hocc n hmem
      rw [hfree] at this
      cases this
    rw [prepend_task_lowest s j t n hfree hlow]
    refine ⟨n, hfree, ?_, ?_, ?_, ?_, ?_, ?_, ?_⟩
    · refine ⟨by simp, ?_⟩
      simp only [Function.update_same]
      refine is_chain_congr s.tasks _ L _ ?_ hL
      intro k hk
      have hne : k ≠ n := fun e => hn (e ▸ hk)
      simp [Function.update_noteq hne]
    · simp [same_values, copy_task]
    · simp [copy_task]
    · simp
    · simp
    · simp
    · intro k hk
      simp [Function.update_noteq hk]

/-- The clearing walk leaves the job-step array alone. -/
theorem deallocate_loop_job_steps :
    ∀ (fuel : Nat) (s s' : slurmd_shmem_t MT MJ) (p : Option (Fin MT)),
      deallocate_loop s fuel p = some s' → s'.job_steps = s.job_steps := by
  intro fuel
  induction fuel with
  | zero =>
    intro s s' p h
    cases p with
    | none =>
      simp [deallocate_loop] at h
      rw [← h]
    | some i => simp [deallocate_loop] at h
  | succ f ih =>
    intro s s' p h
    cases p with
    | none =>
      simp [deallocate_loop] at h
      rw [← h]
    | some i =>
      simp only [deallocate_loop] at h
      have := ih _ _ _ h
      rw [this]
      rfl

/-- In a reachable state a free job-step slot has an empty task list. -/
theorem reachable_free_job_step (s : slurmd_shmem_t MT MJ) (h : Reachable s) :
    ∀ j, (s.job_steps j).used = false → (s.job_steps j).head_task = none := by
  induction h with
  | init s0 =>
    intro j _
    rw [init_shmem_job_steps]
    rfl
  | after_add_job_step s src _ ih =>
    intro j hj
    rcases add_job_step_cases s src with ⟨_, e⟩ | ⟨n, _, _, e⟩
    · rw [e] at hj ⊢
      exact ih j hj
    · rw [e] at hj ⊢
      by_cases hjn : j = n
      · subst hjn
        simp [copy_job_step] at hj
      · rw [set_job_step_ne _ _ _ _ hjn] at hj ⊢
        exact ih j hj
  | after_prepend_task s j0 t _ hused ih =>
    intro j hj
    rcases add_task_cases s t with ⟨hall, _⟩ | ⟨n, hfree, hlow, _⟩
    · rw [prepend_task_full s j0 t hall] at hj ⊢
      exact ih j hj
    · rw [prepend_task_lowest s j0 t n hfree hlow] at hj ⊢
      by_cases hjn : j = j0
      · subst hjn
        simp [hused] at hj
      · simp only [Function.update_noteq hjn] at hj ⊢
        exact ih j hj
  | after_deallocate_job_step s s' j0 r _ _ hd ih =>
    intro j hj
    unfold deallocate_job_step at hd
    cases hloop : deallocate_loop s (MT + 1) (s.job_steps j0).head_task with
    | none => simp [hloop] at hd
    | some s1 =>
      simp only [hloop, Option.some.injEq, Prod.mk.injEq] at hd
      have hjs := deallocate_loop_job_steps _ _ _ _ hloop
      rw [← hd.2] at hj ⊢
      by_cases hjn : j = j0
      · subst hjn
        simp [clear_job_step_at, clear_job_step]
      · simp only [clear_job_step_at, set_job_step_ne _ _ _ _ hjn, hjs] at hj ⊢
        exact ih j hj

/-- Filling a pool whose occupied slots are exactly those below `m`: the calls return
pairwise distinct slots at or above `m`, one per source, and leave the pool full. -/
theorem add_tasks_fill :
    ∀ (srcs : List (task_t MT MJ)) (s : slurmd_shmem_t MT MJ) (m : Nat),
      m + srcs.length = MT →
      (∀ k : Fin MT, (s.tasks k).used = true ↔ k.val < m) →
      ∃ slots : List (Fin MT), (add_tasks s srcs).1 = slots.map some ∧
        slots.length = srcs.length ∧ slots.Nodup ∧ (∀ x ∈ slots, m ≤ x.val) ∧
        (∀ k, ((add_tasks s srcs).2.tasks k).used = true) ∧
        (add_tasks s srcs).2.job_steps = s.job_steps := by
  intro srcs
  induction srcs with
  | nil =>
    intro s m hm hused
    refine ⟨[], rfl, rfl, List.nodup_nil, by simp, ?_, rfl⟩
    intro k
    have : k.val < m := by have := k.isLt; simp at hm; omega
    exact (hused k).mpr this
  | cons t ts ih =>
    intro s m hm hused
    have hlt : m < MT := by simp at hm; omega
    have hfree : (s.tasks ⟨m, hlt⟩).used = false := by
      have := (hused ⟨m, hlt⟩).not.mpr (Nat.lt_irrefl m)
      simpa using this
    have hlow : ∀ k : Fin MT, k.val < m → (s.tasks k).used = true :=
      fun k hk => (hused k).mpr hk
    have e := add_task_lowest s t ⟨m, hlt⟩ hfree hlow
    have hused' : ∀ k : Fin MT, ((add_task s t).2.tasks k).used = true ↔ k.val < m + 1 := by
      intro k
      rw [e]
      by_cases hk : k = ⟨m, hlt⟩
      · subst hk
        simp [copy_task]
      · have hv : k.val ≠ m := fun ev => hk (Fin.ext ev)
        simp only [set_task_tasks_ne _ _ _ _ hk]
        rw [hused k]
        omega
    obtain ⟨slots, h1, h2, h3, h4, h5, h6⟩ :=
      ih (add_task s t).2 (m + 1) (by simp at hm ⊢; omega) hused'
    refine ⟨⟨m, hlt⟩ :: slots, ?_, by simp [h2], ?_, ?_, h5, ?_⟩
    · show (add_task s t).1 :: (add_tasks (add_task s t).2 ts).1 = _
      rw [h1, e]
      rfl
    · refine List.nodup_cons.mpr ⟨?_, h3⟩
      intro hmem
      have := h4 _ hmem
      simp at this
    · intro x hx
      rcases List.mem_cons.mp hx with ex | hx
      · subst ex; simp
      · have := h4 x hx; omega
    · show (add_tasks (add_task s t).2 ts).2.job_steps = _
      rw [h6, e]
      rfl

/-- A slot whose forward link points at itself starts no finite chain. -/
theorem not_is_chain_of_self_loop (tasks : Fin MT → task_t MT MJ) (i : Fin MT)
    (hloop : (tasks i).next = some i) :
    ∀ L : List (Fin MT), ¬ is_chain tasks (some i) L := by
  intro L
  induction L with
  | nil =>
    intro h
    have h0 : some i = none := h
    cases h0
  | cons k L ih =>
    intro h
    have e : i = k := Option.some.inj h.1
    subst e
    have h2 := h.2
    rw [hloop] at h2
    exact ih h2

/-- Three successful `prepend_task` calls on a job step without tasks leave the three
filled slots linked newest first, each with its back pointer on the job step. -/
theorem prepend_task_three (s0 : slurmd_shmem_t MT MJ) (j : Fin MJ) (t1 t2 t3 : task_t MT MJ)
    (h0 : (s0.job_steps j).head_task = none)
    (hs1 : (prepend_task s0 j t1).1 = SLURM_SUCCESS)
    (hs2 : (prepend_task (prepend_task s0 j t1).2 j t2).1 = SLURM_SUCCESS)
    (hs3 : (prepend_task (prepend_task (prepend_task s0 j t1).2 j t2).2 j t3).1 =
      SLURM_SUCCESS) :
    ∃ a b c : Fin MT,
      task_list (prepend_task (prepend_task (prepend_task s0 j t1).2 j t2).2 j t3).2 j
        [c, b, a] ∧
      same_values
        ((prepend_task (prepend_task (prepend_task s0 j t1).2 j t2).2 j t3).2.tasks c) t3 ∧
      same_values
        ((prepend_task (prepend_task (prepend_task s0 j t1).2 j t2).2 j t3).2.tasks b) t2 ∧
      same_values
        ((prepend_task (prepend_task (prepend_task s0 j t1).2 j t2).2 j t3).2.tasks a) t1 ∧
      ((prepend_task (prepend_task (prepend_task s0 j t1).2 j t2).2 j t3).2.tasks c).job_step
        = some j ∧
      ((prepend_task (prepend_task (prepend_task s0 j t1).2 j t2).2 j t3).2.tasks b).job_step
        = some j ∧
      ((prepend_task (prepend_task (prepend_task s0 j t1).2 j t2).2 j t3).2.tasks a).job_step
        = some j := by
  have hL0 : task_list s0 j [] := h0
  obtain ⟨a, _, hl1, hv1, hu1, _, _, hj1, _⟩ :=
    prepend_task_step s0 j t1 [] hL0 (by simp) hs1
  have hocc1 : ∀ i ∈ [a], ((prepend_task s0 j t1).2.tasks i).used = true := by
    intro i hi
    rw [List.mem_singleton.mp hi]
    exact hu1
  obtain ⟨b, hbfree, hl2, hv2, hu2, _, _, hj2, hfr2⟩ :=
    prepend_task_step (prepend_task s0 j t1).2 j t2 [a] hl1 hocc1 hs2
  have hab : a ≠ b := by
    intro e
    rw [← e, hu1] at hbfree
    cases hbfree
  have ha2 := hfr2 a hab
  have hocc2 : ∀ i ∈ [b, a],
      ((prepend_task (prepend_task s0 j t1).2 j t2).2.tasks i).used = true := by
    intro i hi
    rcases List.mem_cons.mp hi with e | hi
    · rw [e]; exact hu2
    · rw [List.mem_singleton.mp hi, ha2]; exact hu1
  obtain ⟨c, hcfree, hl3, hv3, _, _, _, hj3, hfr3⟩ :=
    prepend_task_step (prepend_task (prepend_task s0 j t1).2 j t2).2 j t3 [b, a] hl2 hocc2 hs3
  have hbc : b ≠ c := by
    intro e
    rw [← e, hu2] at hcfree
    cases hcfree
  have hac : a ≠ c := by
    intro e
    rw [← e, ha2, hu1] at hcfree
    cases hcfree
  refine ⟨a, b, c, hl3, hv3, ?_, ?_, hj3, ?_, ?_⟩
  · rw [hfr3 b hbc]; exact hv2
  · rw [hfr3 a hac, ha2]; exact hv1
  · rw [hfr3 b hbc]; exact hj2
  · rw [hfr3 a hac, ha2]; exact hj1

/-! ## Termination of the clearing walk -/

/-- At most `MAX_TASKS` forward links are set. -/
theorem linked_count_le (s : slurmd_shmem_t MT MJ) : linked_count s ≤ MT := by
  unfold linked_count
  calc _ ≤ (Finset.univ : Finset (Fin MT)).card := Finset.card_filter_le _ _
    _ = MT := by simp

/-- Clearing a slot whose forward link is set lowers the number of set links. -/
theorem linked_count_clear (s : slurmd_shmem_t MT MJ) (i k : Fin MT)
    (h : (s.tasks i).next = some k) :
    linked_count (clear_task_at s i) < linked_count s := by
  unfold linked_count
  apply Finset.card_lt_card
  rw [Finset.ssubset_iff_of_subset]
  · refine ⟨i, by simp [h], by simp [clear_task_at, clear_task]⟩
  · intro x hx
    by_cases hxi : x = i
    · subst hxi
      simp [h]
    · simpa [clear_task_at, set_task_tasks_ne _ _ _ _ hxi] using hx

/-- The walk stops at once on `NULL`. -/
theorem deallocate_loop_null (s : slurmd_shmem_t MT MJ) (fuel : Nat) :
    deallocate_loop s fuel none = some s := by
  cases fuel <;> rfl

/-- With more fuel than set forward links the walk reaches `NULL`, from any pointer and in
any segment, cyclic chains included. -/
theorem deallocate_loop_total :
    ∀ (fuel : Nat) (s : slurmd_shmem_t MT MJ) (p : Option (Fin MT)),
      linked_count s < fuel → ∃ s', deallocate_loop s fuel p = some s' := by
  intro fuel
  induction fuel with
  | zero => intro s p h; omega
  | succ f ih =>
    intro s p h
    cases p with
    | none => exact ⟨s, deallocate_loop_null s _⟩
    | some i =>
      simp only [deallocate_loop]
      cases hn : (s.tasks i).next with
      | none => exact ⟨_, deallocate_loop_null _ f⟩
      | some k =>
        have := linked_count_clear s i k hn
        exact ih _ _ (by omega)

/-- The fuel of `deallocate_job_step` is never used up: the function returns
`SLURM_SUCCESS` on every segment and every job step. -/
theorem deallocate_job_step_total (s : slurmd_shmem_t MT MJ) (j : Fin MJ) :
    ∃ s', deallocate_job_step s j = some (SLURM_SUCCESS, s') := by
  obtain ⟨s1, h1⟩ := deallocate_loop_total (MT + 1) s (s.job_steps j).head_task
    (Nat.lt_succ_of_le (linked_count_le s))
  exact ⟨_, by unfold deallocate_job_step; rw [h1]⟩

/-! ## The claims -/

/-- C1: in a segment with a free task slot in which every free task slot has both links
cleared, `add_task` returns a slot whose five value fields are those of the source, whose
`used` flag is true and whose `next` and `job_step` links are cleared. -/
theorem add_task_fills_slot (s : slurmd_shmem_t MT MJ) (t : task_t MT MJ)
    (hfree : ∃ i, (s.tasks i).used = false)
    (hinv : ∀ i, (s.tasks i).used = false →
      (s.tasks i).next = none ∧ (s.tasks i).job_step = none) :
    ∃ n, (add_task s t).1 = some n ∧
      ((add_task s t).2.tasks n).threadid = t.threadid ∧
      ((add_task s t).2.tasks n).pid = t.pid ∧
      ((add_task s t).2.tasks n).task_id = t.task_id ∧
      ((add_task s t).2.tasks n).uid = t.uid ∧
      ((add_task s t).2.tasks n).gid = t.gid ∧
      ((add_task s t).2.tasks n).used = true ∧
      ((add_task s t).2.tasks n).next = none ∧
      ((add_task s t).2.tasks n).job_step = none := by
  rcases add_task_cases s t with ⟨hall, _⟩ | ⟨n, hn, _, e⟩
  · obtain ⟨i, hi⟩ := hfree
    rw [hall i] at hi
    cases hi
  · obtain ⟨hnext, hjs⟩ := hinv n hn
    refine ⟨n, by rw [e], ?_⟩
    rw [e]
    simp [copy_task, hnext, hjs]

/-- Witness of C1 on `ex_half`: slots 1 and 2 are free with cleared links. -/
theorem add_task_fills_slot_witness :
    ∃ n, (add_task ex_half (ex_src 7)).1 = some n ∧
      ((add_task ex_half (ex_src 7)).2.tasks n).threadid = (ex_src 7).threadid ∧
      ((add_task ex_half (ex_src 7)).2.tasks n).pid = (ex_src 7).pid ∧
      ((add_task ex_half (ex_src 7)).2.tasks n).task_id = (ex_src 7).task_id ∧
      ((add_task ex_half (ex_src 7)).2.tasks n).uid = (ex_src 7).uid ∧
      ((add_task ex_half (ex_src 7)).2.tasks n).gid = (ex_src 7).gid ∧
      ((add_task ex_half (ex_src 7)).2.tasks n).used = true ∧
      ((add_task ex_half (ex_src 7)).2.tasks n).next = none ∧
      ((add_task ex_half (ex_src 7)).2.tasks n).job_step = none :=
  add_task_fills_slot ex_half (ex_src 7) ⟨1, by decide⟩ (by decide)

/-- C2: in a segment with a free task slot, `add_task` returns the free slot of lowest
index: the returned slot was free before the call and every slot below it was occupied. -/
theorem add_task_returns_lowest_free (s : slurmd_shmem_t MT MJ) (t : task_t MT MJ)
    (hfree : ∃ i, (s.tasks i).used = false) :
    ∃ n, (add_task s t).1 = some n ∧ (s.tasks n).used = false ∧
      ∀ k : Fin MT, k.val < n.val → (s.tasks k).used = true := by
  rcases add_task_cases s t with ⟨hall, _⟩ | ⟨n, hn, hlow, e⟩
  · obtain ⟨i, hi⟩ := hfree
    rw [hall i] at hi
    cases hi
  · exact ⟨n, by rw [e], hn, hlow⟩

/-- Witness of C2 on `ex_half`, whose slot 2 is free. -/
theorem add_task_returns_lowest_free_witness :
    ∃ n, (add_task ex_half (ex_src 7)).1 = some n ∧ (ex_half.tasks n).used = false ∧
      ∀ k : Fin 3, k.val < n.val → (ex_half.tasks k).used = true :=
  add_task_returns_lowest_free ex_half (ex_src 7) ⟨2, by decide⟩

/-- C3: with `MAX_TASKS = N`, `N` consecutive `add_task` calls on a freshly initialised
segment all succeed and return `N` pairwise distinct slots; one more `add_task` call
returns the error sentinel and leaves the whole segment as it was before that call. -/
theorem add_task_exhaustion_boundary (s0 : slurmd_shmem_t MT MJ)
    (srcs : List (task_t MT MJ)) (extra : task_t MT MJ) (hlen : srcs.length = MT) :
    ∃ slots : List (Fin MT),
      (add_tasks (init_shmem s0) srcs).1 = slots.map some ∧
      slots.length = MT ∧ slots.Nodup ∧
      add_task (add_tasks (init_shmem s0) srcs).2 extra =
        (none, (add_tasks (init_shmem s0) srcs).2) := by
  have hused : ∀ k : Fin MT, ((init_shmem s0).tasks k).used = true ↔ k.val < 0 := by
    intro k
    rw [init_shmem_tasks]
    simp [zero_task]
  obtain ⟨slots, h1, h2, h3, _, h5, _⟩ :=
    add_tasks_fill srcs (init_shmem s0) 0 (by omega) hused
  exact ⟨slots, h1, by omega, h3, add_task_full _ extra h5⟩

/-- Witness of C3 with `MAX_TASKS = 3`. -/
theorem add_task_exhaustion_boundary_witness :
    ∃ slots : List (Fin 3),
      (add_tasks (init_shmem ex_full) [ex_src 1, ex_src 2, ex_src 3]).1 = slots.map some ∧
      slots.length = 3 ∧ slots.Nodup ∧
      add_task (add_tasks (init_shmem ex_full) [ex_src 1, ex_src 2, ex_src 3]).2 (ex_src 4) =
        (none, (add_tasks (init_shmem ex_full) [ex_src 1, ex_src 2, ex_src 3]).2) :=
  add_task_exhaustion_boundary ex_full [ex_src 1, ex_src 2, ex_src 3] (ex_src 4) rfl

/-- C4: `add_task` returns the error sentinel exactly when every task slot is occupied at
the time of the call, and it returns a slot exactly when some slot is free. -/
theorem add_task_exhausted_iff (s : slurmd_shmem_t MT MJ) (t : task_t MT MJ) :
    ((add_task s t).1 = none ↔ ∀ k, (s.tasks k).used = true) ∧
    ((∃ n, (add_task s t).1 = some n) ↔ ∃ i, (s.tasks i).used = false) := by
  rcases add_task_cases s t with ⟨hall, e⟩ | ⟨n, hn, _, e⟩
  · refine ⟨⟨fun _ => hall, fun _ => by rw [e]⟩, ⟨?_, ?_⟩⟩
    · rintro ⟨n, hn⟩
      rw [e] at hn
      cases hn
    · rintro ⟨i, hi⟩
      rw [hall i] at hi
      cases hi
  · refine ⟨⟨?_, ?_⟩, ⟨fun _ => ⟨n, hn⟩, fun _ => ⟨n, by rw [e]⟩⟩⟩
    · intro h
      rw [e] at h
      cases h
    · intro hall
      rw [hall n] at hn
      cases hn

/-- C6: on a job step whose task chain is a finite list `L`, `deallocate_job_step` returns
success and leaves `used = false` with both links cleared on every slot of `L`, and
`used = false` with `head_task` cleared on the job step; a further `clear_task` on any
slot of `L` leaves the segment as it is. -/
theorem deallocate_job_step_clears (s : slurmd_shmem_t MT MJ) (j : Fin MJ)
    (L : List (Fin MT)) (hL : task_list s j L) :
    ∃ s' : slurmd_shmem_t MT MJ,
      deallocate_job_step s j = some (SLURM_SUCCESS, s') ∧
      (∀ i ∈ L, (s'.tasks i).used = false ∧ (s'.tasks i).next = none ∧
        (s'.tasks i).job_step = none) ∧
      (s'.job_steps j).used = false ∧ (s'.job_steps j).head_task = none ∧
      (∀ i ∈ L, clear_task_at s' i = s') := by
  refine ⟨_, deallocate_job_step_spec s j L hL, ?_, ?_, ?_, ?_⟩
  · intro i hi
    simp [hi, clear_task]
  · simp [clear_job_step]
  · simp [clear_job_step]
  · intro i hi
    simp only [clear_task_at, set_task, hi, if_true]
    congr 1
    funext k
    by_cases hk : k = i
    · subst hk
      simp [hi, clear_task]
    · simp [Function.update_noteq hk]

/-- Witness of C6 on `ex_full`, whose job step 0 owns the chain 2, 0. -/
theorem deallocate_job_step_clears_witness :
    ∃ s' : slurmd_shmem_t 3 2,
      deallocate_job_step ex_full 0 = some (SLURM_SUCCESS, s') ∧
      (∀ i ∈ [(2 : Fin 3), 0], (s'.tasks i).used = false ∧ (s'.tasks i).next = none ∧
        (s'.tasks i).job_step = none) ∧
      (s'.job_steps 0).used = false ∧ (s'.job_steps 0).head_task = none ∧
      (∀ i ∈ [(2 : Fin 3), 0], clear_task_at s' i = s') :=
  deallocate_job_step_clears ex_full 0 [2, 0] ⟨rfl, rfl, rfl⟩

/-- C7: whatever the segment held before, after `init_shmem` every task slot has
`used = false`, `next` and `job_step` cleared and its five value fields zero, and every
job-step slot has `used = false`, `head_task` cleared and its two value fields zero. -/
theorem init_shmem_clears_all (s0 : slurmd_shmem_t MT MJ) :
    (∀ i : Fin MT,
      ((init_shmem s0).tasks i).used = false ∧ ((init_shmem s0).tasks i).next = none ∧
      ((init_shmem s0).tasks i).job_step = none ∧ ((init_shmem s0).tasks i).threadid = 0 ∧
      ((init_shmem s0).tasks i).pid = 0 ∧ ((init_shmem s0).tasks i).task_id = 0 ∧
      ((init_shmem s0).tasks i).uid = 0 ∧ ((init_shmem s0).tasks i).gid = 0) ∧
    (∀ j : Fin MJ,
      ((init_shmem s0).job_steps j).used = false ∧
      ((init_shmem s0).job_steps j).head_task = none ∧
      ((init_shmem s0).job_steps j).job_id = 0 ∧
      ((init_shmem s0).job_steps j).job_step_id = 0) := by
  constructor
  · intro i
    rw [init_shmem_tasks]
    simp [zero_task]
  · intro j
    rw [init_shmem_job_steps]
    simp [zero_job_step]

/-- C8: with every task slot occupied, `prepend_task` returns `SLURM_ERROR` and the
segment after the call is the segment before it: the job step, every other job-step slot
and every task slot are unmodified. -/
theorem prepend_task_exhausted_unchanged (s : slurmd_shmem_t MT MJ) (j : Fin MJ)
    (t : task_t MT MJ) (hfull : ∀ k, (s.tasks k).used = true) :
    (prepend_task s j t).1 = SLURM_ERROR ∧ (prepend_task s j t).1 ≠ SLURM_SUCCESS ∧
      (prepend_task s j t).2 = s := by
  rw [prepend_task_full s j t hfull]
  have hne : SLURM_ERROR ≠ SLURM_SUCCESS := by decide
  exact ⟨rfl, hne, rfl⟩

/-- Witness of C8 on `ex_full`, whose three task slots are occupied. -/
theorem prepend_task_exhausted_unchanged_witness :
    (prepend_task ex_full 1 (ex_src 7)).1 = SLURM_ERROR ∧
      (prepend_task ex_full 1 (ex_src 7)).1 ≠ SLURM_SUCCESS ∧
      (prepend_task ex_full 1 (ex_src 7)).2 = ex_full :=
  prepend_task_exhausted_unchanged ex_full 1 (ex_src 7) (by decide)

/-- C9: in a reachable segment state with a free job-step slot, `add_job_step` returns the
free job-step slot of lowest index, and after the call that slot has `used = true`, the
`job_id` and `job_step_id` of the source and `head_task` cleared. -/
theorem add_job_step_reachable (s : slurmd_shmem_t MT MJ) (src : job_step_t MT)
    (hr : Reachable s) (hfree : ∃ i, (s.job_steps i).used = false) :
    ∃ n, (add_job_step s src).1 = some n ∧ (s.job_steps n).used = false ∧
      (∀ k : Fin MJ, k.val < n.val → (s.job_steps k).used = true) ∧
      ((add_job_step s src).2.job_steps n).used = true ∧
      ((add_job_step s src).2.job_steps n).job_id = src.job_id ∧
      ((add_job_step s src).2.job_steps n).job_step_id = src.job_step_id ∧
      ((add_job_step s src).2.job_steps n).head_task = none := by
  rcases add_job_step_cases s src with ⟨hall, _⟩ | ⟨n, hn, hlow, e⟩
  · obtain ⟨i, hi⟩ := hfree
    rw [hall i] at hi
    cases hi
  · have hhead := reachable_free_job_step s hr n hn
    refine ⟨n, by rw [e], hn, hlow, ?_⟩
    rw [e]
    simp [copy_job_step, hhead]

/-- Witness of C9 on the segment reached by `init_shmem`, `add_job_step` and one
`prepend_task` on the job step just added; job-step slot 1 is free there. -/
theorem add_job_step_reachable_witness :
    ∃ n, (add_job_step
        (prepend_task (add_job_step (init_shmem ex_full) ex_job_src).2 0 (ex_src 1)).2
        ex_job_src).1 = some n ∧
      ((prepend_task (add_job_step (init_shmem ex_full) ex_job_src).2 0
        (ex_src 1)).2.job_steps n).used = false ∧
      (∀ k : Fin 2, k.val < n.val →
        ((prepend_task (add_job_step (init_shmem ex_full) ex_job_src).2 0
          (ex_src 1)).2.job_steps k).used = true) ∧
      ((add_job_step
        (prepend_task (add_job_step (init_shmem ex_full) ex_job_src).2 0 (ex_src 1)).2
        ex_job_src).2.job_steps n).used = true ∧
      ((add_job_step
        (prepend_task (add_job_step (init_shmem ex_full) ex_job_src).2 0 (ex_src 1)).2
        ex_job_src).2.job_steps n).job_id = ex_job_src.job_id ∧
      ((add_job_step
        (prepend_task (add_job_step (init_shmem ex_full) ex_job_src).2 0 (ex_src 1)).2
        ex_job_src).2.job_steps n).job_step_id = ex_job_src.job_step_id ∧
      ((add_job_step
        (prepend_task (add_job_step (init_shmem ex_full) ex_job_src).2 0 (ex_src 1)).2
        ex_job_src).2.job_steps n).head_task = none :=
  add_job_step_reachable _ ex_job_src
    (Reachable.after_prepend_task _ 0 (ex_src 1)
      (Reachable.after_add_job_step _ ex_job_src (Reachable.init ex_full)) (by decide))
    ⟨1, by decide⟩

/-- C10: `add_job_step` returns the error sentinel exactly when every job-step slot is
occupied, and then the segment after the call is the segment before it. -/
theorem add_job_step_exhausted_iff (s : slurmd_shmem_t MT MJ) (src : job_step_t MT) :
    ((add_job_step s src).1 = none ↔ ∀ k, (s.job_steps k).used = true) ∧
    ((add_job_step s src).1 = none → (add_job_step s src).2 = s) := by
  rcases add_job_step_cases s src with ⟨hall, e⟩ | ⟨n, hn, _, e⟩
  · exact ⟨⟨fun _ => hall, fun _ => by rw [e]⟩, fun _ => by rw [e]⟩
  · refine ⟨⟨?_, ?_⟩, ?_⟩
    · intro h
      rw [e] at h
      cases h
    · intro hall
      rw [hall n] at hn
      cases hn
    · intro h
      rw [e] at h
      cases h

/-! ## The data-model invariant in reachable states -/

/-- A task list is read off the head pointer and the `next` fields of its own slots. -/
theorem task_list_of_agree (s s' : slurmd_shmem_t MT MJ) (k : Fin MJ) (L : List (Fin MT))
    (hhead : (s'.job_steps k).head_task = (s.job_steps k).head_task)
    (hnext : ∀ i ∈ L, (s'.tasks i).next = (s.tasks i).next)
    (h : task_list s k L) : task_list s' k L := by
  unfold task_list at h ⊢
  rw [hhead]
  exact is_chain_congr s.tasks s'.tasks L _ hnext h

/-- A job step has at most one task list. -/
theorem task_list_unique (s : slurmd_shmem_t MT MJ) (k : Fin MJ) (L L' : List (Fin MT))
    (h : task_list s k L) (h' : task_list s k L') : L = L' :=
  is_chain_unique s.tasks L L' _ h h'

/-- The task array is not written by `add_job_step`. -/
theorem add_job_step_tasks (s : slurmd_shmem_t MT MJ) (src : job_step_t MT) :
    (add_job_step s src).2.tasks = s.tasks := by
  rcases add_job_step_cases s src with ⟨_, e⟩ | ⟨n, _, _, e⟩
  · rw [e]
  · rw [e]
    rfl

/-- No `head_task` field is written by `add_job_step`. -/
theorem add_job_step_head_task (s : slurmd_shmem_t MT MJ) (src : job_step_t MT)
    (k : Fin MJ) :
    ((add_job_step s src).2.job_steps k).head_task = (s.job_steps k).head_task := by
  rcases add_job_step_cases s src with ⟨_, e⟩ | ⟨n, _, _, e⟩
  · rw [e]
  · rw [e]
    by_cases hk : k = n
    · subst hk
      simp [copy_job_step]
    · rw [set_job_step_ne _ _ _ _ hk]

/-- An occupied job-step slot stays occupied over `add_job_step`. -/
theorem add_job_step_used_mono (s : slurmd_shmem_t MT MJ) (src : job_step_t MT)
    (k : Fin MJ) (h : (s.job_steps k).used = true) :
    ((add_job_step s src).2.job_steps k).used = true := by
  rcases add_job_step_cases s src with ⟨_, e⟩ | ⟨n, _, _, e⟩
  · rw [e]; exact h
  · rw [e]
    by_cases hk : k = n
    · subst hk
      simp [copy_job_step]
    · rw [set_job_step_ne _ _ _ _ hk]; exact h

/-- The invariant holds in an initialised segment. -/
theorem seg_inv_init (s0 : slurmd_shmem_t MT MJ) : seg_inv (init_shmem s0) := by
  refine ⟨?_, ?_, ?_⟩
  · intro i _
    rw [init_shmem_tasks]
    exact ⟨rfl, rfl⟩
  · intro j
    refine ⟨[], ?_, by simp⟩
    show ((init_shmem s0).job_steps j).head_task = none
    rw [init_shmem_job_steps]
    rfl
  · intro i hi
    rw [init_shmem_tasks] at hi
    simp [zero_task] at hi

/-- The invariant is kept by `add_job_step`. -/
theorem seg_inv_add_job_step (s : slurmd_shmem_t MT MJ) (src : job_step_t MT)
    (h : seg_inv s) : seg_inv (add_job_step s src).2 := by
  have ht := add_job_step_tasks s src
  refine ⟨?_, ?_, ?_⟩
  · intro i hi
    rw [ht] at hi ⊢
    exact h.free_task i hi
  · intro j
    obtain ⟨L, hL, hmem⟩ := h.chains j
    refine ⟨L, ?_, ?_⟩
    · exact task_list_of_agree s _ j L (add_job_step_head_task s src j)
        (fun i _ => by rw [ht]) hL
    · intro i hi
      rw [ht]
      exact hmem i hi
  · intro i hi
    rw [ht] at hi
    obtain ⟨j, L, hj, hu, hL, hmem⟩ := h.owned i hi
    refine ⟨j, L, by rw [ht]; exact hj, add_job_step_used_mono s src j hu, ?_, hmem⟩
    exact task_list_of_agree s _ j L (add_job_step_head_task s src j)
      (fun i _ => by rw [ht]) hL

/-- Task slots other than the one `prepend_task` fills are not written. -/
theorem prepend_task_tasks_ne (s : slurmd_shmem_t MT MJ) (j : Fin MJ) (t : task_t MT MJ)
    (n : Fin MT) (hfree : (s.tasks n).used = false)
    (hlow : ∀ k : Fin MT, k.val < n.val → (s.tasks k).used = true)
    (i : Fin MT) (hi : i ≠ n) : (prepend_task s j t).2.tasks i = s.tasks i := by
  rw [prepend_task_lowest s j t n hfree hlow]
  simp [Function.update_noteq hi]

/-- The slot `prepend_task` fills is occupied and points back to the job step. -/
theorem prepend_task_tasks_new (s : slurmd_shmem_t MT MJ) (j : Fin MJ) (t : task_t MT MJ)
    (n : Fin MT) (hfree : (s.tasks n).used = false)
    (hlow : ∀ k : Fin MT, k.val < n.val → (s.tasks k).used = true) :
    ((prepend_task s j t).2.tasks n).used = true ∧
    ((prepend_task s j t).2.tasks n).job_step = some j := by
  rw [prepend_task_lowest s j t n hfree hlow]
  simp [copy_task]

/-- No `used` flag of a job-step slot is written by `prepend_task`. -/
theorem prepend_task_job_step_used (s : slurmd_shmem_t MT MJ) (j : Fin MJ)
    (t : task_t MT MJ) (k : Fin MJ) :
    ((prepend_task s j t).2.job_steps k).used = (s.job_steps k).used := by
  rcases add_task_cases s t with ⟨hall, _⟩ | ⟨n, hfree, hlow, _⟩
  · rw [prepend_task_full s j t hall]
  · rw [prepend_task_lowest s j t n hfree hlow]
    by_cases hk : k = j
    · subst hk
      simp
    · simp [Function.update_noteq hk]

/-- A task list of another job step that does not hold the filled slot is a task list
of that job step after `prepend_task`. -/
theorem prepend_task_other_chain (s : slurmd_shmem_t MT MJ) (j : Fin MJ) (t : task_t MT MJ)
    (n : Fin MT) (hfree : (s.tasks n).used = false)
    (hlow : ∀ k : Fin MT, k.val < n.val → (s.tasks k).used = true)
    (k : Fin MJ) (hk : k ≠ j) (L : List (Fin MT)) (hn : n ∉ L) (h : task_list s k L) :
    task_list (prepend_task s j t).2 k L := by
  refine task_list_of_agree s _ k L ?_ ?_ h
  · rw [prepend_task_lowest s j t n hfree hlow]
    simp [Function.update_noteq hk]
  · intro i hi
    have hne : i ≠ n := fun e => hn (e ▸ hi)
    rw [prepend_task_tasks_ne s j t n hfree hlow i hne]

/-- The task list of the job step itself gets the filled slot in front. -/
theorem prepend_task_self_chain (s : slurmd_shmem_t MT MJ) (j : Fin MJ) (t : task_t MT MJ)
    (n : Fin MT) (hfree : (s.tasks n).used = false)
    (hlow : ∀ k : Fin MT, k.val < n.val → (s.tasks k).used = true)
    (L : List (Fin MT)) (hn : n ∉ L) (h : task_list s j L) :
    task_list (prepend_task s j t).2 j (n :: L) := by
  rw [prepend_task_lowest s j t n hfree hlow]
  refine ⟨by simp, ?_⟩
  simp only [Function.update_same]
  refine is_chain_congr s.tasks _ L _ ?_ h
  intro k hk
  have hne : k ≠ n := fun e => hn (e ▸ hk)
  simp [Function.update_noteq hne]

/-- The invariant is kept by `prepend_task` on an occupied job step. -/
theorem seg_inv_prepend_task (s : slurmd_shmem_t MT MJ) (j : Fin MJ) (t : task_t MT MJ)
    (h : seg_inv s) (hu : (s.job_steps j).used = true) :
    seg_inv (prepend_task s j t).2 := by
  rcases add_task_cases s t with ⟨hall, _⟩ | ⟨n, hfree, hlow, _⟩
  · rw [prepend_task_full s j t hall]
    exact h
  · have hnot : ∀ (L : List (Fin MT)), (∀ i ∈ L, (s.tasks i).used = true) → n ∉ L := by
      intro L hocc hmem
      have := hocc n hmem
      rw [hfree] at this
      cases this
    have hne := prepend_task_tasks_ne s j t n hfree hlow
    obtain ⟨hnu, hnj⟩ := prepend_task_tasks_new s j t n hfree hlow
    have hchain : ∀ (k : Fin MJ) (L : List (Fin MT)), task_list s k L →
        (∀ i ∈ L, (s.tasks i).used = true) →
        ∃ L', task_list (prepend_task s j t).2 k L' ∧ (∀ i ∈ L, i ∈ L') ∧
          (∀ i ∈ L', i = n ∧ k = j ∨ i ∈ L) := by
      intro k L hL hocc
      have hn := hnot L hocc
      by_cases hk : k = j
      · subst hk
        refine ⟨n :: L, prepend_task_self_chain s k t n hfree hlow L hn hL, ?_, ?_⟩
        · intro i hi
          exact List.mem_cons_of_mem n hi
        · intro i hi
          rcases List.mem_cons.mp hi with e | hi
          · exact Or.inl ⟨e, rfl⟩
          · exact Or.inr hi
      · exact ⟨L, prepend_task_other_chain s j t n hfree hlow k hk L hn hL,
          fun i hi => hi, fun i hi => Or.inr hi⟩
    refine ⟨?_, ?_, ?_⟩
    · intro i hi
      by_cases hin : i = n
      · rw [hin, hnu] at hi
        cases hi
      · rw [hne i hin] at hi ⊢
        exact h.free_task i hi
    · intro k
      obtain ⟨L, hL, hmem⟩ := h.chains k
      obtain ⟨L', hL', _, hback⟩ := hchain k L hL (fun i hi => (hmem i hi).1)
      refine ⟨L', hL', ?_⟩
      intro i hi
      rcases hback i hi with ⟨e, ekj⟩ | hiL
      · rw [e, ekj]
        exact ⟨hnu, hnj⟩
      · have hin : i ≠ n := fun e => hnot L (fun i hi => (hmem i hi).1) (e ▸ hiL)
        rw [hne i hin]
        exact hmem i hiL
    · intro i hi
      by_cases hin : i = n
      · obtain ⟨L, hL, hmem⟩ := h.chains j
        refine ⟨j, n :: L, by rw [hin]; exact hnj, ?_, ?_, by rw [hin]; simp⟩
        · rw [prepend_task_job_step_used]
          exact hu
        · exact prepend_task_self_chain s j t n hfree hlow L
            (hnot L (fun i hi => (hmem i hi).1)) hL
      · rw [hne i hin] at hi
        obtain ⟨k, L, hk, hku, hL, hmem⟩ := h.owned i hi
        obtain ⟨L0, hL0, hmem0⟩ := h.chains k
        have e : L0 = L := task_list_unique s k L0 L hL0 hL
        subst e
        obtain ⟨L', hL', hfwd, _⟩ := hchain k L0 hL0 (fun i hi => (hmem0 i hi).1)
        refine ⟨k, L', by rw [hne i hin]; exact hk, ?_, hL', hfwd i hmem⟩
        rw [prepend_task_job_step_used]
        exact hku

/-- A task list of another job step that shares no slot with the cleared chain is a
task list of that job step after the clearing. -/
theorem deallocate_other_chain (s : slurmd_shmem_t MT MJ) (j : Fin MJ) (L0 : List (Fin MT))
    (k : Fin MJ) (hk : k ≠ j) (L : List (Fin MT)) (hdis : ∀ i ∈ L, i ∉ L0)
    (h : task_list s k L) :
    task_list
      { tasks := fun i => if i ∈ L0 then clear_task (s.tasks i) else s.tasks i
        job_steps := Function.update s.job_steps j (clear_job_step (s.job_steps j)) }
      k L := by
  refine task_list_of_agree s _ k L ?_ ?_ h
  · simp [Function.update_noteq hk]
  · intro i hi
    simp [hdis i hi]

/-- The invariant is kept by `deallocate_job_step`. -/
theorem seg_inv_deallocate_job_step (s s' : slurmd_shmem_t MT MJ) (j : Fin MJ) (r : Int)
    (h : seg_inv s) (hd : deallocate_job_step s j = some (r, s')) : seg_inv s' := by
  obtain ⟨L0, hL0, hmem0⟩ := h.chains j
  rw [deallocate_job_step_spec s j L0 hL0] at hd
  simp only [Option.some.injEq, Prod.mk.injEq] at hd
  obtain ⟨_, hs'⟩ := hd
  subst hs'
  have hdis : ∀ (k : Fin MJ) (L : List (Fin MT)), k ≠ j →
      (∀ i ∈ L, (s.tasks i).job_step = some k) → ∀ i ∈ L, i ∉ L0 := by
    intro k L hk hback i hi hi0
    have h1 := hback i hi
    rw [(hmem0 i hi0).2] at h1
    exact hk (Option.some.inj h1).symm
  refine ⟨?_, ?_, ?_⟩
  · intro i hi
    by_cases hi0 : i ∈ L0
    · simp [hi0, clear_task]
    · simp only [hi0, if_false] at hi ⊢
      exact h.free_task i hi
  · intro k
    by_cases hk : k = j
    · subst hk
      refine ⟨[], ?_, by simp⟩
      show (Function.update s.job_steps k (clear_job_step (s.job_steps k)) k).head_task = none
      simp [clear_job_step]
    · obtain ⟨L, hL, hmem⟩ := h.chains k
      have hd := hdis k L hk (fun i hi => (hmem i hi).2)
      refine ⟨L, deallocate_other_chain s j L0 k hk L hd hL, ?_⟩
      intro i hi
      simp only [hd i hi, if_false]
      exact hmem i hi
  · intro i hi
    by_cases hi0 : i ∈ L0
    · simp [hi0, clear_task] at hi
    · simp only [hi0, if_false] at hi ⊢
      obtain ⟨k, L, hk, hku, hL, hmem⟩ := h.owned i hi
      have hkj : k ≠ j := by
        intro e
        subst e
        have := task_list_unique s k L L0 hL hL0
        exact hi0 (this ▸ hmem)
      obtain ⟨L1, hL1, hmem1⟩ := h.chains k
      have e : L1 = L := task_list_unique s k L1 L hL1 hL
      subst e
      have hd := hdis k L1 hkj (fun i hi => (hmem1 i hi).2)
      refine ⟨k, L1, hk, ?_, deallocate_other_chain s j L0 k hkj L1 hd hL, hmem⟩
      simp [Function.update_noteq hkj, hku]

/-- Every reachable segment state satisfies the data-model invariant. -/
theorem reachable_seg_inv (s : slurmd_shmem_t MT MJ) (h : Reachable s) : seg_inv s := by
  induction h with
  | init s0 => exact seg_inv_init s0
  | after_add_job_step s src _ ih => exact seg_inv_add_job_step s src ih
  | after_prepend_task s j t _ hu ih => exact seg_inv_prepend_task s j t ih hu
  | after_deallocate_job_step s s' j r _ _ hd ih =>
    exact seg_inv_deallocate_job_step s s' j r ih hd

/-- The example segment `ex_reached` is reachable. -/
theorem ex_reached_reachable : Reachable ex_reached :=
  Reachable.after_prepend_task _ 0 (ex_src 3)
    (Reachable.after_prepend_task _ 0 (ex_src 2)
      (Reachable.after_prepend_task _ 0 (ex_src 1)
        (Reachable.after_add_job_step _ ex_job_src (Reachable.init ex_full))
        (by decide))
      (by decide))
    (by decide)

/-- The example segment `ex_two` is reachable. -/
theorem ex_two_reachable : Reachable ex_two :=
  Reachable.after_prepend_task _ 1 (ex_src 2)
    (Reachable.after_prepend_task _ 0 (ex_src 1)
      (Reachable.after_add_job_step _ ex_job_src
        (Reachable.after_add_job_step _ ex_job_src (Reachable.init ex_full)))
      (by decide))
    (by decide)

/-! ## Segment contents outside the data-model invariant -/

/-- On `ex_stale` the head of job step 0 is the free slot 0, against the job-step
invariant of the data model.  There `prepend_task` succeeds, picks that very slot and
links it to itself, and the chain of job step 0 is no finite list afterwards: the
occupancy of the chained slots is what a prepend relies on. -/
theorem prepend_task_on_free_chain_slot :
    task_list ex_stale 0 [0] ∧
    (prepend_task ex_stale 0 (ex_src 7)).1 = SLURM_SUCCESS ∧
    ((prepend_task ex_stale 0 (ex_src 7)).2.job_steps 0).head_task = some 0 ∧
    ¬ ∃ L, task_list (prepend_task ex_stale 0 (ex_src 7)).2 0 L := by
  have hhead : ((prepend_task ex_stale 0 (ex_src 7)).2.job_steps 0).head_task = some 0 := by
    decide
  have hloop : ((prepend_task ex_stale 0 (ex_src 7)).2.tasks 0).next = some 0 := by
    decide
  have hno : ∀ L, ¬ task_list (prepend_task ex_stale 0 (ex_src 7)).2 0 L := by
    intro L h
    unfold task_list at h
    rw [hhead] at h
    exact not_is_chain_of_self_loop _ 0 hloop L h
  exact ⟨⟨rfl, rfl⟩, by decide, hhead, fun ⟨L, h⟩ => hno L h⟩

/-- On `ex_dangling`, a record with `used = false` and a set forward link, against the
task-record invariant of the data model, `clear_task` writes the link: the cleared links
of a free slot are what makes a further `clear_task` a no-op. -/
theorem clear_task_on_set_link :
    ex_dangling.used = false ∧ clear_task ex_dangling ≠ ex_dangling := by
  exact ⟨rfl, by decide⟩

/-! ## The claims, continued -/

/-- C5: for a job step whose task list read head to tail is `L`, in a segment that keeps
the job-step invariant of the data model (every slot of `L` is occupied; so it is in every
reachable state), a successful `prepend_task` makes the list the new slot, holding the
value fields of the source, followed by `L` with its slots unchanged; the forward link of
the new slot is the old head, `head_task` of the job step is the new slot and the back
pointer of the new slot is the job step.  Three successful calls with sources `t1`, `t2`,
`t3` on a job step without tasks give the list of the slots holding `t3`, `t2`, `t1`,
each with its back pointer on the job step. -/
theorem prepend_task_is_cons (s : slurmd_shmem_t MT MJ) (j : Fin MJ) (t : task_t MT MJ)
    (L : List (Fin MT)) (hL : task_list s j L)
    (hinv : (∀ i ∈ L, (s.tasks i).used = true) ∨ Reachable s)
    (hs : (prepend_task s j t).1 = SLURM_SUCCESS) :
    (∃ n : Fin MT,
      task_list (prepend_task s j t).2 j (n :: L) ∧
      same_values ((prepend_task s j t).2.tasks n) t ∧
      (∀ i ∈ L, (prepend_task s j t).2.tasks i = s.tasks i) ∧
      ((prepend_task s j t).2.tasks n).next = (s.job_steps j).head_task ∧
      ((prepend_task s j t).2.job_steps j).head_task = some n ∧
      ((prepend_task s j t).2.tasks n).job_step = some j) ∧
    (∀ (s0 : slurmd_shmem_t MT MJ) (t1 t2 t3 : task_t MT MJ),
      (s0.job_steps j).head_task = none →
      (prepend_task s0 j t1).1 = SLURM_SUCCESS →
      (prepend_task (prepend_task s0 j t1).2 j t2).1 = SLURM_SUCCESS →
      (prepend_task (prepend_task (prepend_task s0 j t1).2 j t2).2 j t3).1 = SLURM_SUCCESS →
      ∃ a b c : Fin MT,
        task_list (prepend_task (prepend_task (prepend_task s0 j t1).2 j t2).2 j t3).2 j
          [c, b, a] ∧
        same_values
          ((prepend_task (prepend_task (prepend_task s0 j t1).2 j t2).2 j t3).2.tasks c) t3 ∧
        same_values
          ((prepend_task (prepend_task (prepend_task s0 j t1).2 j t2).2 j t3).2.tasks b) t2 ∧
        same_values
          ((prepend_task (prepend_task (prepend_task s0 j t1).2 j t2).2 j t3).2.tasks a) t1 ∧
        ((prepend_task (prepend_task (prepend_task s0 j t1).2 j t2).2 j t3).2.tasks c).job_step
          = some j ∧
        ((prepend_task (prepend_task (prepend_task s0 j t1).2 j t2).2 j t3).2.tasks b).job_step
          = some j ∧
        ((prepend_task (prepend_task (prepend_task s0 j t1).2 j t2).2 j t3).2.tasks a).job_step
          = some j) := by
  refine ⟨?_, fun s0 t1 t2 t3 => prepend_task_three s0 j t1 t2 t3⟩
  have hocc : ∀ i ∈ L, (s.tasks i).used = true := by
    rcases hinv with h | hr
    · exact h
    · obtain ⟨L0, hL0, hmem⟩ := (reachable_seg_inv s hr).chains j
      have e : L0 = L := task_list_unique s j L0 L hL0 hL
      subst e
      exact fun i hi => (hmem i hi).1
  obtain ⟨n, hnfree, hl, hv, _, hnext, hhead, hjs, hfr⟩ := prepend_task_step s j t L hL hocc hs
  refine ⟨n, hl, hv, ?_, hnext, hhead, hjs⟩
  intro i hi
  refine hfr i ?_
  intro e
  have hu := hocc i hi
  rw [e, hnfree] at hu
  cases hu

/-- Witness of C5: one prepend on `ex_half`, whose job step 0 owns the occupied slot 0,
one prepend on the reachable segment `ex_two`, whose job step 0 owns slot 0, and three
prepends on `ex_empty`, whose job step 0 owns no task. -/
theorem prepend_task_is_cons_witness :
    ∃ n m a b c : Fin 3,
      task_list (prepend_task ex_half 0 (ex_src 7)).2 0 [n, 0] ∧
      task_list (prepend_task ex_two 0 (ex_src 3)).2 0 [m, 0] ∧
      task_list (prepend_task (prepend_task (prepend_task ex_empty 0 (ex_src 1)).2 0
        (ex_src 2)).2 0 (ex_src 3)).2 0 [c, b, a] := by
  have h := prepend_task_is_cons ex_half 0 (ex_src 7) [0] ⟨rfl, rfl⟩ (Or.inl (by decide))
    (by decide)
  have h2 := prepend_task_is_cons ex_two 0 (ex_src 3) [0] ⟨rfl, rfl⟩
    (Or.inr ex_two_reachable) (by decide)
  obtain ⟨⟨n, hl, _⟩, hB⟩ := h
  obtain ⟨⟨m, hl2, _⟩, _⟩ := h2
  obtain ⟨a, b, c, hl3, _⟩ :=
    hB ex_empty (ex_src 1) (ex_src 2) (ex_src 3) rfl (by decide) (by decide) (by decide)
  exact ⟨n, m, a, b, c, hl, hl2, hl3⟩


/-- C11: `clear_task` and `clear_job_step` are idempotent on every slot state, occupied or
free and with any link values, as functions on a slot and as calls on a slot of the
segment. -/
theorem clear_idempotent :
    (∀ t : task_t MT MJ, clear_task (clear_task t) = clear_task t) ∧
    (∀ js : job_step_t MT, clear_job_step (clear_job_step js) = clear_job_step js) ∧
    (∀ (s : slurmd_shmem_t MT MJ) (i : Fin MT),
      clear_task_at (clear_task_at s i) i = clear_task_at s i) ∧
    (∀ (s : slurmd_shmem_t MT MJ) (j : Fin MJ),
      clear_job_step_at (clear_job_step_at s j) j = clear_job_step_at s j) := by
  refine ⟨fun _ => rfl, fun _ => rfl, ?_, ?_⟩
  · intro s i
    simp [clear_task_at, set_task, clear_task]
  · intro s j
    simp [clear_job_step_at, set_job_step, clear_job_step]

/-- C12: `clear_task` applied to an already-free task slot (`used = false`), in a segment
that keeps the task-record invariant of the data model for that slot (both links
cleared; so it is in every reachable state), is a no-op: the slot and the whole segment
are after the call what they were before. -/
theorem clear_task_free_noop (s : slurmd_shmem_t MT MJ) (i : Fin MT)
    (hu : (s.tasks i).used = false)
    (hinv : ((s.tasks i).next = none ∧ (s.tasks i).job_step = none) ∨ Reachable s) :
    clear_task (s.tasks i) = s.tasks i ∧ clear_task_at s i = s := by
  have hlinks : (s.tasks i).next = none ∧ (s.tasks i).job_step = none := by
    rcases hinv with h | hr
    · exact h
    · exact (reachable_seg_inv s hr).free_task i hu
  obtain ⟨hn, hj⟩ := hlinks
  have e : clear_task (s.tasks i) = s.tasks i := by
    unfold clear_task
    rw [← hu, ← hn, ← hj]
  refine ⟨e, ?_⟩
  simp [clear_task_at, set_task, e]

/-- Witness of C12 on the free slot 1 of `ex_half`, whose links are cleared, and on the
free slot 2 of the reachable segment `ex_two`. -/
theorem clear_task_free_noop_witness :
    (clear_task (ex_half.tasks 1) = ex_half.tasks 1 ∧ clear_task_at ex_half 1 = ex_half) ∧
    (clear_task (ex_two.tasks 2) = ex_two.tasks 2 ∧ clear_task_at ex_two 2 = ex_two) :=
  ⟨clear_task_free_noop ex_half 1 rfl (Or.inl ⟨rfl, rfl⟩),
    clear_task_free_noop ex_two 2 (by decide) (Or.inr ex_two_reachable)⟩

/-- C13: in every reachable segment state a task slot with `used = false` has `next` and
`job_step` cleared, and a task slot with `used = true` has a `job_step` back pointer to a
job-step slot whose `used` flag is true. -/
theorem task_record_invariant (s : slurmd_shmem_t MT MJ) (hr : Reachable s) :
    (∀ i, (s.tasks i).used = false →
      (s.tasks i).next = none ∧ (s.tasks i).job_step = none) ∧
    (∀ i, (s.tasks i).used = true →
      ∃ j, (s.tasks i).job_step = some j ∧ (s.job_steps j).used = true) := by
  have h := reachable_seg_inv s hr
  refine ⟨h.free_task, ?_⟩
  intro i hi
  obtain ⟨j, _, hj, hu, _⟩ := h.owned i hi
  exact ⟨j, hj, hu⟩

/-- Witness of C13 on `ex_reached`. -/
theorem task_record_invariant_witness :
    (∀ i, (ex_reached.tasks i).used = false →
      (ex_reached.tasks i).next = none ∧ (ex_reached.tasks i).job_step = none) ∧
    (∀ i, (ex_reached.tasks i).used = true →
      ∃ j, (ex_reached.tasks i).job_step = some j ∧ (ex_reached.job_steps j).used = true) :=
  task_record_invariant ex_reached ex_reached_reachable

/-- C14: in every reachable segment state the chain of every job-step slot, from
`head_task` along the `next` links, is a finite list that ends in the cleared link, holds
only task slots with `used = true` and visits no slot twice. -/
theorem job_step_chain_invariant (s : slurmd_shmem_t MT MJ) (hr : Reachable s)
    (j : Fin MJ) :
    ∃ L : List (Fin MT), task_list s j L ∧ (∀ i ∈ L, (s.tasks i).used = true) ∧
      L.Nodup := by
  obtain ⟨L, hL, hmem⟩ := (reachable_seg_inv s hr).chains j
  exact ⟨L, hL, fun i hi => (hmem i hi).1, is_chain_nodup s.tasks L _ hL⟩

/-- Witness of C14 on job step 0 of `ex_reached`. -/
theorem job_step_chain_invariant_witness :
    ∃ L : List (Fin 3), task_list ex_reached 0 L ∧
      (∀ i ∈ L, (ex_reached.tasks i).used = true) ∧ L.Nodup :=
  job_step_chain_invariant ex_reached ex_reached_reachable 0

/-- C15: in a reachable segment state with the task pool full and a job step whose task
chain is not empty, `deallocate_job_step` on that job step succeeds and the next
`add_task` call returns a slot of that chain, the one of lowest index. -/
theorem freed_slot_reused (s : slurmd_shmem_t MT MJ) (hr : Reachable s) (j : Fin MJ)
    (t : task_t MT MJ) (hfull : ∀ k, (s.tasks k).used = true)
    (hne : (s.job_steps j).head_task ≠ none) :
    ∃ (L : List (Fin MT)) (s' : slurmd_shmem_t MT MJ) (n : Fin MT),
      task_list s j L ∧ deallocate_job_step s j = some (SLURM_SUCCESS, s') ∧
      (add_task s' t).1 = some n ∧ n ∈ L ∧ ∀ i ∈ L, n.val ≤ i.val := by
  obtain ⟨L, hL, _⟩ := (reachable_seg_inv s hr).chains j
  have hfree_iff : ∀ i : Fin MT,
      ((if i ∈ L then clear_task (s.tasks i) else s.tasks i).used = false) ↔ i ∈ L := by
    intro i
    by_cases hi : i ∈ L
    · simp [hi, clear_task]
    · simp [hi, hfull i]
  have hex : ∃ i : Fin MT, i ∈ L := by
    cases L with
    | nil => exact absurd hL hne
    | cons a L => exact ⟨a, List.mem_cons_self a L⟩
  obtain ⟨i0, hi0⟩ := hex
  obtain ⟨n, hn, hlow⟩ := exists_lowest_free
    (fun i => (if i ∈ L then clear_task (s.tasks i) else s.tasks i).used)
    ⟨i0, (hfree_iff i0).mpr hi0⟩
  refine ⟨L, _, n, hL, deallocate_job_step_spec s j L hL, ?_, (hfree_iff n).mp hn, ?_⟩
  · rw [add_task_lowest _ t n hn hlow]
  · intro i hi
    by_contra hlt
    have hu := hlow i (by omega)
    have hf := (hfree_iff i).mpr hi
    simp only at hu
    rw [hf] at hu
    cases hu

/-- Witness of C15 on `ex_reached`: the pool is full and job step 0 owns three tasks. -/
theorem freed_slot_reused_witness :
    ∃ (L : List (Fin 3)) (s' : slurmd_shmem_t 3 2) (n : Fin 3),
      task_list ex_reached 0 L ∧ deallocate_job_step ex_reached 0 = some (SLURM_SUCCESS, s') ∧
      (add_task s' (ex_src 7)).1 = some n ∧ n ∈ L ∧ ∀ i ∈ L, n.val ≤ i.val :=
  freed_slot_reused ex_reached ex_reached_reachable 0 (ex_src 7) (by decide) (by decide)

/-- With a free task slot `prepend_task` returns success. -/
theorem prepend_task_succeeds (s : slurmd_shmem_t MT MJ) (j : Fin MJ) (t : task_t MT MJ)
    (h : ∃ i, (s.tasks i).used = false) : (prepend_task s j t).1 = SLURM_SUCCESS := by
  rcases add_task_cases s t with ⟨hall, _⟩ | ⟨n, hfree, hlow, _⟩
  · obtain ⟨i, hi⟩ := h
    rw [hall i] at hi
    cases hi
  · rw [prepend_task_lowest s j t n hfree hlow]

/-- The job step `add_job_step` returns on a segment whose job-step slots are all free
with cleared heads: its task list is empty afterwards and no task slot is written. -/
theorem add_job_step_on_free (s : slurmd_shmem_t MT MJ) (src : job_step_t MT)
    (hMJ : 0 < MJ) (hz : ∀ k, s.job_steps k = zero_job_step) :
    ∃ j, (add_job_step s src).1 = some j ∧ task_list (add_job_step s src).2 j [] ∧
      (add_job_step s src).2.tasks = s.tasks := by
  rcases add_job_step_cases s src with ⟨hall, _⟩ | ⟨n, _, _, e⟩
  · have h0 := hall ⟨0, hMJ⟩
    rw [hz] at h0
    cases h0
  · refine ⟨n, by rw [e], ?_, add_job_step_tasks s src⟩
    show ((add_job_step s src).2.job_steps n).head_task = none
    rw [add_job_step_head_task, hz]
    rfl

/-- C16, as stated, fails on the code.  With `MAX_TASKS = 4` and the steps in the stated
order: the four `add_task` calls return the four slots, the fifth returns the sentinel,
`add_job_step` returns job step 0, and then both `prepend_task` calls return `SLURM_ERROR`
since the pool is full; the task list of the job step is empty, not a list of two
slots. -/
theorem scenario_in_order_counterexample :
    (add_tasks (init_shmem ex4_seg) [ex4_src 1, ex4_src 2, ex4_src 3, ex4_src 4]).1 =
      [some 0, some 1, some 2, some 3] ∧
    (add_task ex4_full (ex4_src 5)).1 = none ∧
    (add_job_step ex4_full ex4_job_src).1 = some 0 ∧
    (prepend_task (add_job_step ex4_full ex4_job_src).2 0 (ex4_src 6)).1 = SLURM_ERROR ∧
    (prepend_task (prepend_task (add_job_step ex4_full ex4_job_src).2 0 (ex4_src 6)).2 0
      (ex4_src 7)).1 = SLURM_ERROR ∧
    task_list ex4_final 0 [] ∧
    ¬ ∃ a b, task_list ex4_final 0 [b, a] := by
  have hempty : task_list ex4_final 0 [] := by
    show (ex4_final.job_steps 0).head_task = none
    decide
  refine ⟨by decide, by decide, by decide, by decide, by decide, hempty, ?_⟩
  rintro ⟨a, b, h⟩
  have := task_list_unique ex4_final 0 _ _ hempty h
  cases this

/-- C16, amended: with `MAX_TASKS = 4`, from a freshly initialised segment four `add_task`
calls succeed with four distinct slots and a fifth returns the sentinel; `add_job_step`
then returns a job step, and `prepend_task` of task `A` and of task `B` onto it both
return `SLURM_ERROR`, change nothing and leave its task list empty.  Run on the freshly
initialised segment instead, `add_job_step` followed by `prepend_task` of `A` and then of
`B` leaves the task list of the job step, read head to tail, the slot holding `B`
followed by the slot holding `A`. -/
theorem scenario_four_task_slots (hMJ : 0 < MJ) (s0 : slurmd_shmem_t 4 MJ)
    (t1 t2 t3 t4 t5 A B : task_t 4 MJ) (src : job_step_t 4) :
    (∃ (slots : List (Fin 4)) (s4 sJ : slurmd_shmem_t 4 MJ) (j : Fin MJ),
      add_tasks (init_shmem s0) [t1, t2, t3, t4] = (slots.map some, s4) ∧
      slots.length = 4 ∧ slots.Nodup ∧
      add_task s4 t5 = (none, s4) ∧
      add_job_step s4 src = (some j, sJ) ∧
      prepend_task sJ j A = (SLURM_ERROR, sJ) ∧
      prepend_task sJ j B = (SLURM_ERROR, sJ) ∧
      task_list sJ j []) ∧
    (∃ (j : Fin MJ) (sJ sA sB : slurmd_shmem_t 4 MJ) (a b : Fin 4),
      add_job_step (init_shmem s0) src = (some j, sJ) ∧
      prepend_task sJ j A = (SLURM_SUCCESS, sA) ∧
      prepend_task sA j B = (SLURM_SUCCESS, sB) ∧
      task_list sB j [b, a] ∧
      same_values (sB.tasks b) B ∧ same_values (sB.tasks a) A) := by
  constructor
  · have hused : ∀ k : Fin 4, ((init_shmem s0).tasks k).used = true ↔ k.val < 0 := by
      intro k
      rw [init_shmem_tasks]
      simp [zero_task]
    obtain ⟨slots, h1, h2, h3, _, h5, h6⟩ :=
      add_tasks_fill [t1, t2, t3, t4] (init_shmem s0) 0 rfl hused
    have hz : ∀ k, (add_tasks (init_shmem s0) [t1, t2, t3, t4]).2.job_steps k =
        zero_job_step := by
      intro k
      rw [h6, init_shmem_job_steps]
    obtain ⟨j, hj, hlist, htasks⟩ :=
      add_job_step_on_free (add_tasks (init_shmem s0) [t1, t2, t3, t4]).2 src hMJ hz
    have hfull : ∀ k, ((add_job_step (add_tasks (init_shmem s0) [t1, t2, t3, t4]).2
        src).2.tasks k).used = true := by
      intro k
      rw [htasks]
      exact h5 k
    exact ⟨slots, _, _, j, Prod.ext h1 rfl, h2, h3, add_task_full _ t5 h5,
      Prod.ext hj rfl, prepend_task_full _ j A hfull, prepend_task_full _ j B hfull, hlist⟩
  · have hz : ∀ k, (init_shmem s0).job_steps k = zero_job_step :=
      fun k => init_shmem_job_steps s0 k
    obtain ⟨j, hj, hlist, htasks⟩ := add_job_step_on_free (init_shmem s0) src hMJ hz
    have hfree : ∀ k, ((add_job_step (init_shmem s0) src).2.tasks k).used = false := by
      intro k
      rw [htasks, init_shmem_tasks]
      rfl
    have hs1 := prepend_task_succeeds (add_job_step (init_shmem s0) src).2 j A
      ⟨0, hfree 0⟩
    obtain ⟨a, _, hl1, hv1, hu1, _, _, _, hfr1⟩ :=
      prepend_task_step (add_job_step (init_shmem s0) src).2 j A [] hlist (by simp) hs1
    have hex : ∃ i : Fin 4, i ≠ a := by
      by_cases h0 : (0 : Fin 4) = a
      · exact ⟨1, by rw [← h0]; decide⟩
      · exact ⟨0, h0⟩
    obtain ⟨i, hia⟩ := hex
    have hs2 := prepend_task_succeeds
      (prepend_task (add_job_step (init_shmem s0) src).2 j A).2 j B
      ⟨i, by rw [hfr1 i hia]; exact hfree i⟩
    have hocc : ∀ k ∈ [a],
        ((prepend_task (add_job_step (init_shmem s0) src).2 j A).2.tasks k).used = true := by
      intro k hk
      rw [List.mem_singleton.mp hk]
      exact hu1
    obtain ⟨b, hbfree, hl2, hv2, _, _, _, _, hfr2⟩ :=
      prepend_task_step (prepend_task (add_job_step (init_shmem s0) src).2 j A).2 j B [a]
        hl1 hocc hs2
    have hab : a ≠ b := by
      intro e
      rw [← e, hu1] at hbfree
      cases hbfree
    refine ⟨j, _, _, _, a, b, Prod.ext hj rfl, Prod.ext hs1 rfl, Prod.ext hs2 rfl, hl2,
      hv2, ?_⟩
    rw [hfr2 a hab]
    exact hv1

/-- Witness of C16 (amended) with two job-step slots and the prior content `ex4_seg`. -/
theorem scenario_four_task_slots_witness :
    (∃ (slots : List (Fin 4)) (s4 sJ : slurmd_shmem_t 4 2) (j : Fin 2),
      add_tasks (init_shmem ex4_seg) [ex4_src 1, ex4_src 2, ex4_src 3, ex4_src 4] =
        (slots.map some, s4) ∧
      slots.length = 4 ∧ slots.Nodup ∧
      add_task s4 (ex4_src 5) = (none, s4) ∧
      add_job_step s4 ex4_job_src = (some j, sJ) ∧
      prepend_task sJ j (ex4_src 6) = (SLURM_ERROR, sJ) ∧
      prepend_task sJ j (ex4_src 7) = (SLURM_ERROR, sJ) ∧
      task_list sJ j []) ∧
    (∃ (j : Fin 2) (sJ sA sB : slurmd_shmem_t 4 2) (a b : Fin 4),
      add_job_step (init_shmem ex4_seg) ex4_job_src = (some j, sJ) ∧
      prepend_task sJ j (ex4_src 6) = (SLURM_SUCCESS, sA) ∧
      prepend_task sA j (ex4_src 7) = (SLURM_SUCCESS, sB) ∧
      task_list sB j [b, a] ∧
      same_values (sB.tasks b) (ex4_src 7) ∧ same_values (sB.tasks a) (ex4_src 6)) :=
  scenario_four_task_slots (by decide) ex4_seg (ex4_src 1) (ex4_src 2) (ex4_src 3)
    (ex4_src 4) (ex4_src 5) (ex4_src 6) (ex4_src 7) ex4_job_src

/-- The scan of `add_task` started at index `i` reads at most `MAX_TASKS - i` slots,
however much fuel it is given. -/
theorem add_task_inspected_length (s : slurmd_shmem_t MT MJ) :
    ∀ (fuel i : Nat), (add_task_inspected s fuel i).length ≤ MT - i := by
  intro fuel
  induction fuel with
  | zero => intro i; simp [add_task_inspected]
  | succ f ih =>
    intro i
    unfold add_task_inspected
    by_cases h : i < MT
    · by_cases hu : (s.tasks ⟨i, h⟩).used = false
      · simp only [h, dite_true]
        rw [if_pos hu, List.length_singleton]
        omega
      · simp only [h, dite_true]
        rw [if_neg hu, List.length_cons]
        have := ih (i + 1)
        omega
    · simp [h]

/-- The scan of `add_job_step` started at index `i` reads at most `MAX_JOB_STEPS - i`
slots. -/
theorem add_job_step_inspected_length (s : slurmd_shmem_t MT MJ) :
    ∀ (fuel i : Nat), (add_job_step_inspected s fuel i).length ≤ MJ - i := by
  intro fuel
  induction fuel with
  | zero => intro i; simp [add_job_step_inspected]
  | succ f ih =>
    intro i
    unfold add_job_step_inspected
    by_cases h : i < MJ
    · by_cases hu : (s.job_steps ⟨i, h⟩).used = false
      · simp only [h, dite_true]
        rw [if_pos hu, List.length_singleton]
        omega
      · simp only [h, dite_true]
        rw [if_neg hu, List.length_cons]
        have := ih (i + 1)
        omega
    · simp [h]

/-- On a finite chain `L` the walk visits exactly the slots of `L`, in order. -/
theorem deallocate_visited_chain :
    ∀ (L : List (Fin MT)) (s : slurmd_shmem_t MT MJ) (p : Option (Fin MT)) (fuel : Nat),
      is_chain s.tasks p L → L.length ≤ fuel → deallocate_visited s fuel p = L := by
  intro L
  induction L with
  | nil =>
    intro s p fuel h _
    have hp : p = none := h
    subst hp
    cases fuel <;> rfl
  | cons i L ih =>
    intro s p fuel h hfuel
    have hp : p = some i := h.1
    subst hp
    have hnd := is_chain_nodup s.tasks (i :: L) _ h
    have hi : i ∉ L := (List.nodup_cons.mp hnd).1
    cases fuel with
    | zero => simp at hfuel
    | succ f =>
      have hc : is_chain (clear_task_at s i).tasks (s.tasks i).next L := by
        refine is_chain_congr s.tasks _ L _ ?_ h.2
        intro k hk
        have hne : k ≠ i := fun e => hi (e ▸ hk)
        simp [clear_task_at, set_task_tasks_ne _ _ _ _ hne]
      have hlen : L.length ≤ f := by simpa using hfuel
      simp only [deallocate_visited]
      rw [ih (clear_task_at s i) _ f hc hlen]

/-- C17: the scan of `add_task` reads at most `MAX_TASKS` slots and the scan of
`add_job_step` at most `MAX_JOB_STEPS` slots, and in every reachable segment state the
walk of `deallocate_job_step` terminates (the call returns), visiting exactly the slots of
the task list of the job step, each task slot at most once and so at most `MAX_TASKS`
slots. -/
theorem operations_bounded (s : slurmd_shmem_t MT MJ) (hr : Reachable s) (j : Fin MJ) :
    (∀ fuel, (add_task_inspected s fuel 0).length ≤ MT) ∧
    (∀ fuel, (add_job_step_inspected s fuel 0).length ≤ MJ) ∧
    (∃ s', deallocate_job_step s j = some (SLURM_SUCCESS, s')) ∧
    task_list s j (deallocate_visited s (MT + 1) (s.job_steps j).head_task) ∧
    (deallocate_visited s (MT + 1) (s.job_steps j).head_task).Nodup ∧
    (deallocate_visited s (MT + 1) (s.job_steps j).head_task).length ≤ MT := by
  obtain ⟨L, hL, _⟩ := (reachable_seg_inv s hr).chains j
  have hlen := is_chain_length_le s.tasks L _ hL
  have hv := deallocate_visited_chain L s _ (MT + 1) hL (Nat.le_succ_of_le hlen)
  refine ⟨fun fuel => add_task_inspected_length s fuel 0,
    fun fuel => add_job_step_inspected_length s fuel 0,
    ⟨_, deallocate_job_step_spec s j L hL⟩, ?_, ?_, ?_⟩
  · rw [hv]; exact hL
  · rw [hv]; exact is_chain_nodup s.tasks L _ hL
  · rw [hv]; exact hlen

/-- Witness of C17 on job step 0 of `ex_reached`. -/
theorem operations_bounded_witness :
    (∀ fuel, (add_task_inspected ex_reached fuel 0).length ≤ 3) ∧
    (∀ fuel, (add_job_step_inspected ex_reached fuel 0).length ≤ 2) ∧
    (∃ s', deallocate_job_step ex_reached 0 = some (SLURM_SUCCESS, s')) ∧
    task_list ex_reached 0
      (deallocate_visited ex_reached (3 + 1) (ex_reached.job_steps 0).head_task) ∧
    (deallocate_visited ex_reached (3 + 1) (ex_reached.job_steps 0).head_task).Nodup ∧
    (deallocate_visited ex_reached (3 + 1) (ex_reached.job_steps 0).head_task).length ≤ 3 :=
  operations_bounded ex_reached ex_reached_reachable 0

/-- C18: a successful `add_task` leaves every task slot other than the returned one, the
two link fields of the returned slot and the job-step array as they were; a successful
`add_job_step` leaves every job-step slot other than the returned one, the `head_task`
field of the returned slot and the task array as they were. -/
theorem allocation_frame (s : slurmd_shmem_t MT MJ) (t : task_t MT MJ)
    (src : job_step_t MT) :
    (∀ n, (add_task s t).1 = some n →
      (∀ k, k ≠ n → (add_task s t).2.tasks k = s.tasks k) ∧
      ((add_task s t).2.tasks n).next = (s.tasks n).next ∧
      ((add_task s t).2.tasks n).job_step = (s.tasks n).job_step ∧
      (add_task s t).2.job_steps = s.job_steps) ∧
    (∀ n, (add_job_step s src).1 = some n →
      (∀ k, k ≠ n → (add_job_step s src).2.job_steps k = s.job_steps k) ∧
      ((add_job_step s src).2.job_steps n).head_task = (s.job_steps n).head_task ∧
      (add_job_step s src).2.tasks = s.tasks) := by
  constructor
  · intro n hn
    rcases add_task_cases s t with ⟨_, e⟩ | ⟨m, _, _, e⟩
    · rw [e] at hn
      cases hn
    · rw [e] at hn ⊢
      have hmn : m = n := Option.some.inj hn
      subst hmn
      refine ⟨fun k hk => set_task_tasks_ne _ _ _ _ hk, ?_, ?_, rfl⟩
      · simp [copy_task]
      · simp [copy_task]
  · intro n hn
    refine ⟨?_, add_job_step_head_task s src n, add_job_step_tasks s src⟩
    rcases add_job_step_cases s src with ⟨_, e⟩ | ⟨m, _, _, e⟩
    · rw [e] at hn
      cases hn
    · rw [e] at hn ⊢
      have hmn : m = n := Option.some.inj hn
      subst hmn
      exact fun k hk => set_job_step_ne _ _ _ _ hk

/-- Witness of C18 on `ex_half`, where `add_task` returns task slot 1 and `add_job_step`
returns job-step slot 1. -/
theorem allocation_frame_witness :
    ((∀ k, k ≠ 1 → (add_task ex_half (ex_src 7)).2.tasks k = ex_half.tasks k) ∧
      ((add_task ex_half (ex_src 7)).2.tasks 1).next = (ex_half.tasks 1).next ∧
      ((add_task ex_half (ex_src 7)).2.tasks 1).job_step = (ex_half.tasks 1).job_step ∧
      (add_task ex_half (ex_src 7)).2.job_steps = ex_half.job_steps) ∧
    ((∀ k, k ≠ 1 → (add_job_step ex_half ex_job_src).2.job_steps k = ex_half.job_steps k) ∧
      ((add_job_step ex_half ex_job_src).2.job_steps 1).head_task =
        (ex_half.job_steps 1).head_task ∧
      (add_job_step ex_half ex_job_src).2.tasks = ex_half.tasks) :=
  ⟨(allocation_frame ex_half (ex_src 7) ex_job_src).1 1 (by decide),
    (allocation_frame ex_half (ex_src 7) ex_job_src).2 1 (by decide)⟩

/-- C19, as stated, fails on `ex_shared`: job step 0 has the finite chain 1, 0 and job
step 1 the chain 2, 1, 0.  `deallocate_job_step` on job step 0 leaves the job-step slot 1
as it was, and yet the task list of job step 1 is 2, 1 afterwards, not 2, 1, 0. -/
theorem deallocate_shared_chain_counterexample :
    task_list ex_shared 0 [1, 0] ∧ task_list ex_shared 1 [2, 1, 0] ∧
    ∃ s', deallocate_job_step ex_shared 0 = some (SLURM_SUCCESS, s') ∧
      s'.job_steps 1 = ex_shared.job_steps 1 ∧
      task_list s' 1 [2, 1] ∧ ¬ task_list s' 1 [2, 1, 0] := by
  have h0 : task_list ex_shared 0 [1, 0] := ⟨rfl, rfl, rfl⟩
  refine ⟨h0, ⟨rfl, rfl, rfl, rfl⟩, _, deallocate_job_step_spec ex_shared 0 [1, 0] h0,
    by decide, ?_, ?_⟩
  · exact ⟨rfl, rfl, rfl⟩
  · intro h
    have hl : task_list
        { tasks := fun k =>
            if k ∈ [(1 : Fin 3), 0] then clear_task (ex_shared.tasks k) else ex_shared.tasks k
          job_steps := Function.update ex_shared.job_steps 0
            (clear_job_step (ex_shared.job_steps 0)) } 1 [2, 1] := ⟨rfl, rfl, rfl⟩
    have := task_list_unique _ 1 _ _ hl h
    cases this

/-- C19, amended: on a job step with a finite chain `L`, `deallocate_job_step` returns
success and leaves unchanged every task slot outside `L`, every other job-step slot, the
five value fields of the slots of `L` and the two value fields of the job step, so that
only `used` and the links of the slots of `L` and `used` and `head_task` of the job step
are written; the task list of every other job step that shares no slot with `L` is
unchanged. -/
theorem deallocate_job_step_frame (s : slurmd_shmem_t MT MJ) (j : Fin MJ)
    (L : List (Fin MT)) (hL : task_list s j L) :
    ∃ s' : slurmd_shmem_t MT MJ,
      deallocate_job_step s j = some (SLURM_SUCCESS, s') ∧
      (∀ i, i ∉ L → s'.tasks i = s.tasks i) ∧
      (∀ k, k ≠ j → s'.job_steps k = s.job_steps k) ∧
      (∀ i ∈ L, same_values (s'.tasks i) (s.tasks i)) ∧
      (s'.job_steps j).job_id = (s.job_steps j).job_id ∧
      (s'.job_steps j).job_step_id = (s.job_steps j).job_step_id ∧
      (∀ (k : Fin MJ) (L' : List (Fin MT)), k ≠ j → task_list s k L' →
        (∀ i ∈ L', i ∉ L) → task_list s' k L') := by
  refine ⟨_, deallocate_job_step_spec s j L hL, ?_, ?_, ?_, ?_, ?_, ?_⟩
  · intro i hi
    simp [hi]
  · intro k hk
    simp [Function.update_noteq hk]
  · intro i hi
    simp [hi, same_values, clear_task]
  · simp [clear_job_step]
  · simp [clear_job_step]
  · intro k L' hk hL' hdis
    exact deallocate_other_chain s j L k hk L' hdis hL'

/-- Witness of C19 (amended) on job step 0 of `ex_full`, whose chain is 2, 0. -/
theorem deallocate_job_step_frame_witness :
    ∃ s' : slurmd_shmem_t 3 2,
      deallocate_job_step ex_full 0 = some (SLURM_SUCCESS, s') ∧
      (∀ i, i ∉ [(2 : Fin 3), 0] → s'.tasks i = ex_full.tasks i) ∧
      (∀ k, k ≠ 0 → s'.job_steps k = ex_full.job_steps k) ∧
      (∀ i ∈ [(2 : Fin 3), 0], same_values (s'.tasks i) (ex_full.tasks i)) ∧
      (s'.job_steps 0).job_id = (ex_full.job_steps 0).job_id ∧
      (s'.job_steps 0).job_step_id = (ex_full.job_steps 0).job_step_id ∧
      (∀ (k : Fin 2) (L' : List (Fin 3)), k ≠ 0 → task_list ex_full k L' →
        (∀ i ∈ L', i ∉ [(2 : Fin 3), 0]) → task_list s' k L') :=
  deallocate_job_step_frame ex_full 0 [2, 0] ⟨rfl, rfl, rfl⟩

/-- C20: in every reachable segment state no task slot is in the task chains of two
different job-step slots, every task of a job step's chain has its back pointer on that
job step, and a successful `prepend_task` leaves the task list of every other job step,
and the slots in it, unchanged. -/
theorem chains_disjoint (s : slurmd_shmem_t MT MJ) (hr : Reachable s) :
    (∀ (j k : Fin MJ) (L L' : List (Fin MT)) (i : Fin MT),
      task_list s j L → task_list s k L' → i ∈ L → i ∈ L' → j = k) ∧
    (∀ (j : Fin MJ) (L : List (Fin MT)) (i : Fin MT),
      task_list s j L → i ∈ L → (s.tasks i).job_step = some j) ∧
    (∀ (j : Fin MJ) (t : task_t MT MJ), (prepend_task s j t).1 = SLURM_SUCCESS →
      ∀ (k : Fin MJ), k ≠ j → ∀ (L : List (Fin MT)),
        (task_list (prepend_task s j t).2 k L ↔ task_list s k L) ∧
        (task_list s k L → ∀ i ∈ L, (prepend_task s j t).2.tasks i = s.tasks i)) := by
  have hinv := reachable_seg_inv s hr
  have hback : ∀ (j : Fin MJ) (L : List (Fin MT)) (i : Fin MT),
      task_list s j L → i ∈ L → (s.tasks i).used = true ∧ (s.tasks i).job_step = some j := by
    intro j L i hL hi
    obtain ⟨L0, hL0, hmem⟩ := hinv.chains j
    have e : L0 = L := task_list_unique s j L0 L hL0 hL
    subst e
    exact hmem i hi
  refine ⟨?_, fun j L i hL hi => (hback j L i hL hi).2, ?_⟩
  · intro j k L L' i hL hL' hi hi'
    have h1 := (hback j L i hL hi).2
    rw [(hback k L' i hL' hi').2] at h1
    exact (Option.some.inj h1).symm
  · intro j t hs k hk L
    rcases add_task_cases s t with ⟨hall, _⟩ | ⟨n, hfree, hlow, _⟩
    · rw [prepend_task_full s j t hall] at hs
      have hne : SLURM_ERROR ≠ SLURM_SUCCESS := by decide
      exact absurd hs hne
    · have hnot : ∀ L : List (Fin MT), task_list s k L → n ∉ L := by
        intro L hL hmem
        have := (hback k L n hL hmem).1
        rw [hfree] at this
        cases this
      have hfwd : ∀ L : List (Fin MT), task_list s k L →
          task_list (prepend_task s j t).2 k L :=
        fun L hL => prepend_task_other_chain s j t n hfree hlow k hk L (hnot L hL) hL
      refine ⟨⟨?_, hfwd L⟩, ?_⟩
      · intro hL'
        obtain ⟨L0, hL0, _⟩ := hinv.chains k
        have e : L0 = L := task_list_unique _ k L0 L (hfwd L0 hL0) hL'
        rw [← e]
        exact hL0
      · intro hL i hi
        have hne : i ≠ n := fun e => hnot L hL (e ▸ hi)
        exact prepend_task_tasks_ne s j t n hfree hlow i hne

/-- Witness of C20 on `ex_two`: job step 0 owns slot 0 and job step 1 owns slot 1; a
`prepend_task` on job step 0 leaves the task list of job step 1 the single slot 1. -/
theorem chains_disjoint_witness :
    (ex_two.tasks 1).job_step = some 1 ∧
    task_list (prepend_task ex_two 0 (ex_src 3)).2 1 [1] ∧
    (prepend_task ex_two 0 (ex_src 3)).2.tasks 1 = ex_two.tasks 1 :=
  ⟨(chains_disjoint ex_two ex_two_reachable).2.1 1 [1] 1 ⟨rfl, rfl⟩ (by simp),
    ((chains_disjoint ex_two ex_two_reachable).2.2 0 (ex_src 3) (by decide) 1 (by decide)
      [1]).1.mpr ⟨rfl, rfl⟩,
    ((chains_disjoint ex_two ex_two_reachable).2.2 0 (ex_src 3) (by decide) 1 (by decide)
      [1]).2 ⟨rfl, rfl⟩ 1 (by simp)⟩

end Slurmd
